import Mathlib

/-!
Verification model of the fastwise repository (a Neo4j-backed curriculum
ingestion and recommendation service).

The model is a shallow embedding of the Python source:

* `Val` models JSON-like Python values (ingestion items) and Neo4j property
  values.  `Err` models the exception kinds the source distinguishes
  (`DataValidationError` versus Python built-in exceptions).
* `Graph` is a property graph: a list of labelled nodes with association-list
  property maps, and a list of typed edges identified by the endpoint key
  properties that the source's Cypher `MATCH`/`MERGE` clauses use.  Under the
  uniqueness constraints declared by `SetupRepository.create_constraints_and_indexes`,
  identifying an edge endpoint by its label and key property is faithful.
* Each Cypher statement executed by
  `SetupRepository.populate_question_and_concepts_transaction` is compiled to
  one `Op` (`compileItem`), and a transaction is the fold of its ops
  (`populateTx`); a raised exception makes the whole transaction roll back,
  which the `Except` result models (the graph is unchanged on `.error`).
* The batch pipeline (`DataPopulationService`) and the query / progress layers
  are translated function by function; timestamps (`datetime()`) are modelled
  by an explicit `now : Int` parameter.
-/

namespace Fastwise

/-- JSON-like values: Python dict/list/str/int/bool/None as produced by
`json.load`, also used for Neo4j node/edge property values. -/
inductive Val where
  | null
  | bool (b : Bool)
  | str (s : String)
  | int (n : Int)
  | arr (xs : List Val)
  | obj (kvs : List (String × Val))
deriving Repr

mutual

def Val.beq : Val → Val → Bool
  | .null, .null => true
  | .bool a, .bool b => a == b
  | .str a, .str b => a == b
  | .int a, .int b => a == b
  | .arr xs, .arr ys => Val.beqL xs ys
  | .obj xs, .obj ys => Val.beqO xs ys
  | _, _ => false

def Val.beqL : List Val → List Val → Bool
  | [], [] => true
  | x :: xs, y :: ys => Val.beq x y && Val.beqL xs ys
  | _, _ => false

def Val.beqO : List (String × Val) → List (String × Val) → Bool
  | [], [] => true
  | (k1, v1) :: xs, (k2, v2) :: ys => k1 == k2 && Val.beq v1 v2 && Val.beqO xs ys
  | _, _ => false

end

mutual

theorem Val.beq_iff : ∀ a b : Val, Val.beq a b = true ↔ a = b
  | .null, .null => by simp [Val.beq]
  | .bool a, .bool b => by simp [Val.beq]
  | .str a, .str b => by simp [Val.beq]
  | .int a, .int b => by simp [Val.beq]
  | .arr xs, .arr ys => by
      simp only [Val.beq, Val.beqL_iff xs ys, Val.arr.injEq]
  | .obj xs, .obj ys => by
      simp only [Val.beq, Val.beqO_iff xs ys, Val.obj.injEq]
  | .null, .bool _ | .null, .str _ | .null, .int _ | .null, .arr _ | .null, .obj _
  | .bool _, .null | .bool _, .str _ | .bool _, .int _ | .bool _, .arr _ | .bool _, .obj _
  | .str _, .null | .str _, .bool _ | .str _, .int _ | .str _, .arr _ | .str _, .obj _
  | .int _, .null | .int _, .bool _ | .int _, .str _ | .int _, .arr _ | .int _, .obj _
  | .arr _, .null | .arr _, .bool _ | .arr _, .str _ | .arr _, .int _ | .arr _, .obj _
  | .obj _, .null | .obj _, .bool _ | .obj _, .str _ | .obj _, .int _ | .obj _, .arr _ => by
      simp [Val.beq]

theorem Val.beqL_iff : ∀ xs ys : List Val, Val.beqL xs ys = true ↔ xs = ys
  | [], [] => by simp [Val.beqL]
  | x :: xs, y :: ys => by
      simp [Val.beqL, Val.beq_iff x y, Val.beqL_iff xs ys]
  | [], _ :: _ => by simp [Val.beqL]
  | _ :: _, [] => by simp [Val.beqL]

theorem Val.beqO_iff : ∀ xs ys : List (String × Val), Val.beqO xs ys = true ↔ xs = ys
  | [], [] => by simp [Val.beqO]
  | (k1, v1) :: xs, (k2, v2) :: ys => by
      simp [Val.beqO, Val.beq_iff v1 v2, Val.beqO_iff xs ys, and_assoc]
  | [], _ :: _ => by simp [Val.beqO]
  | _ :: _, [] => by simp [Val.beqO]

end

instance : DecidableEq Val := fun a b =>
  decidable_of_iff (Val.beq a b = true) (Val.beq_iff a b)

/-- Exception kinds of the source: `DataValidationError` (the only kind the
validation loop catches) versus Python built-in errors. -/
inductive Err where
  | validation (msg : String)
  | typeErr (msg : String)
  | attributeErr (msg : String)
deriving DecidableEq, Repr

/-- Python truthiness of a JSON-like value (`if x:`). -/
def Val.truthy : Val → Bool
  | .null => false
  | .bool b => b
  | .str s => !s.isEmpty
  | .int n => n != 0
  | .arr xs => !xs.isEmpty
  | .obj kvs => !kvs.isEmpty

/-- Dictionary lookup with default, `kvs.get(k, d)` on a known dict. -/
def objGetD (kvs : List (String × Val)) (k : String) (d : Val) : Val :=
  match kvs.find? (fun kv => kv.1 == k) with
  | some kv => kv.2
  | none => d

/-- Python `item.get(k, d)`: an `AttributeError` unless the value is a dict. -/
def Val.getAttr : Val → String → Val → Except Err Val
  | .obj kvs, k, d => .ok (objGetD kvs k d)
  | _, _, _ => .error (.attributeErr "object has no attribute get")

/-- Python subscript `item[k]` with a string key. -/
def Val.sub : Val → String → Except Err Val
  | .obj kvs, k =>
    match kvs.find? (fun kv => kv.1 == k) with
    | some kv => .ok kv.2
    | none => .error (.typeErr "KeyError")
  | _, _ => .error (.typeErr "value is not subscriptable by a string")

/-- Python membership test `k in item` (substring test on strings, element
test on lists, key test on dicts, `TypeError` otherwise). -/
def Val.hasKey : Val → String → Except Err Bool
  | .obj kvs, k => .ok (kvs.any (fun kv => kv.1 == k))
  | .str s, k => .ok ((s.splitOn k).length > 1)
  | .arr xs, k => .ok (xs.any (fun v => v == .str k))
  | _, _ => .error (.typeErr "argument is not iterable")

/-- Whitespace trimming on the character list (`str.strip()` of Python on
its whitespace classes). -/
def trimChars (s : String) : String :=
  String.mk (((s.toList.dropWhile Char.isWhitespace).reverse.dropWhile
    Char.isWhitespace).reverse)

/-- Python `x.strip()`: an `AttributeError` unless the value is a string. -/
def Val.strip : Val → Except Err String
  | .str s => .ok (trimChars s)
  | _ => .error (.attributeErr "object has no attribute strip")

/-- Python iteration `for x in v` (strings iterate over their characters,
dicts over their keys). -/
def Val.iter : Val → Except Err (List Val)
  | .arr xs => .ok xs
  | .str s => .ok (s.toList.map (fun c => Val.str (String.mk [c])))
  | .obj kvs => .ok (kvs.map (fun kv => Val.str kv.1))
  | _ => .error (.typeErr "object is not iterable")

/-! ## Property maps and the property graph -/

/-- A Neo4j property map (insertion-ordered association list, keys unique in
every map the model constructs). -/
abbrev Props := List (String × Val)

/-- Reading a property; a missing property reads as `null` in Cypher. -/
def getProp : Props → String → Val
  | [], _ => .null
  | kv :: p, k => if kv.1 == k then kv.2 else getProp p k

/-- Whether the map carries the property `k`. -/
def hasPropK (p : Props) (k : String) : Bool :=
  p.any (fun kv => kv.1 == k)

/-- Cypher `SET n.k = v`: overwrite the property if present, else add it. -/
def setProp (p : Props) (k : String) (v : Val) : Props :=
  if hasPropK p k then
    p.map (fun kv => if kv.1 == k then (k, v) else kv)
  else
    p ++ [(k, v)]

/-- Cypher `coalesce(x, d)`. -/
def coalesce (v d : Val) : Val :=
  match v with
  | .null => d
  | v => v

structure Node where
  label : String
  props : Props
deriving DecidableEq, Repr

/-- An edge, with its endpoints identified by label and unique key property
(the form every `MATCH`/`MERGE` pattern of the source uses). -/
structure Edge where
  relType : String
  srcLabel : String
  srcKey : String
  srcVal : Val
  dstLabel : String
  dstKey : String
  dstVal : Val
  props : Props
deriving DecidableEq, Repr

structure Graph where
  nodes : List Node
  edges : List Edge
deriving DecidableEq, Repr

def Graph.empty : Graph := ⟨[], []⟩

def nodeMatches (label idKey : String) (idVal : Val) (n : Node) : Bool :=
  n.label == label && getProp n.props idKey == idVal

def Graph.hasNode (g : Graph) (label idKey : String) (idVal : Val) : Bool :=
  g.nodes.any (nodeMatches label idKey idVal)

/-- Cypher `MERGE (n:L {k: v}) SET ...`: update every matching node, or
create the node and apply the `SET` clause to it. -/
def Graph.mergeNode (g : Graph) (label idKey : String) (idVal : Val)
    (upd : Props → Props) : Graph :=
  if g.hasNode label idKey idVal then
    { g with nodes := g.nodes.map (fun n =>
        if nodeMatches label idKey idVal n then { n with props := upd n.props } else n) }
  else
    { g with nodes := g.nodes ++ [{ label := label, props := upd [(idKey, idVal)] }] }

def edgeMatches (relType srcLabel srcKey : String) (srcVal : Val)
    (dstLabel dstKey : String) (dstVal : Val) (e : Edge) : Bool :=
  e.relType == relType && e.srcLabel == srcLabel && e.srcKey == srcKey &&
  e.srcVal == srcVal && e.dstLabel == dstLabel && e.dstKey == dstKey &&
  e.dstVal == dstVal

def Graph.hasEdge (g : Graph) (relType srcLabel srcKey : String) (srcVal : Val)
    (dstLabel dstKey : String) (dstVal : Val) : Bool :=
  g.edges.any (edgeMatches relType srcLabel srcKey srcVal dstLabel dstKey dstVal)

/-- Cypher `MATCH (a) MATCH (b) MERGE (a)-[r:T]->(b) SET ...`: a no-op unless
both endpoints exist; otherwise update the matching edges or create one. -/
def Graph.mergeEdge (g : Graph) (relType srcLabel srcKey : String) (srcVal : Val)
    (dstLabel dstKey : String) (dstVal : Val) (upd : Props → Props) : Graph :=
  if g.hasNode srcLabel srcKey srcVal && g.hasNode dstLabel dstKey dstVal then
    if g.hasEdge relType srcLabel srcKey srcVal dstLabel dstKey dstVal then
      { g with edges := g.edges.map (fun e =>
          if edgeMatches relType srcLabel srcKey srcVal dstLabel dstKey dstVal e then
            { e with props := upd e.props }
          else e) }
    else
      { g with edges := g.edges ++
          [{ relType := relType, srcLabel := srcLabel, srcKey := srcKey, srcVal := srcVal,
             dstLabel := dstLabel, dstKey := dstKey, dstVal := dstVal, props := upd [] }] }
  else g

/-! ## The upsert engine (SetupRepository)

Each Cypher statement run by `populate_question_and_concepts_transaction` is
one `Op`.  The three `SET` templates of the source become the three
constructors of `NodeUpd`. -/

/-- The `SET` clause of one of the source's three node-merge templates.
`qUpd` is `_create_question_node` (note: it sets `created_at = datetime()`
unconditionally), `cUpd` is the concept/subconcept template and `saUpd` the
solution-approach template (both create `created_at` only if absent, via
`coalesce`). -/
inductive NodeUpd where
  | qUpd (title question difficulty stepNo subStepNo slNo : Val) (now : Int)
  | cUpd (now : Int)
  | saUpd (explanation : String) (now : Int)
deriving DecidableEq, Repr

/-- Cypher `SET` items read the pre-`SET` property values, so `coalesce`
arguments are taken from the incoming map. -/
def NodeUpd.apply : NodeUpd → Props → Props
  | .qUpd t q d s ss sq now, p =>
      setProp (setProp (setProp (setProp (setProp (setProp (setProp (setProp p
        "question_title" t) "question" q) "difficulty" d)
        "step_number" s) "sub_step_number" ss) "sequence_number" sq)
        "created_at" (.int now)) "updated_at" (.int now)
  | .cUpd now, p =>
      setProp (setProp p "created_at" (coalesce (getProp p "created_at") (.int now)))
        "updated_at" (.int now)
  | .saUpd e now, p =>
      setProp (setProp (setProp p "explanation" (.str e))
        "created_at" (coalesce (getProp p "created_at") (.int now)))
        "updated_at" (.int now)

/-- One Cypher statement of the upsert transaction: a node merge-upsert or an
edge merge (the engine's edge merges carry no `SET` clause). -/
inductive Op where
  | node (label idKey : String) (idVal : Val) (upd : NodeUpd)
  | edge (relType srcLabel srcKey : String) (srcVal : Val)
      (dstLabel dstKey : String) (dstVal : Val)
deriving DecidableEq, Repr

def applyOp (g : Graph) : Op → Graph
  | .node label idKey idVal upd => g.mergeNode label idKey idVal upd.apply
  | .edge rt sl sk sv dl dk dv => g.mergeEdge rt sl sk sv dl dk dv (fun p => p)

def runOps (g : Graph) (ops : List Op) : Graph := ops.foldl applyOp g

/-- `SetupRepository._validate_question_data`: presence check of the seven
required fields; raises `DataValidationError` naming the missing ones. -/
def requiredFields : List String :=
  ["id", "question_title", "question", "difficulty", "step_no", "sub_step_no", "sl_no"]

/-- The comprehension `[field for field in required_fields if field not in data]`
(the membership test is evaluated left to right and can itself raise). -/
def missingFields (item : Val) : List String → Except Err (List String)
  | [] => .ok []
  | f :: rest => do
      let b ← item.hasKey f
      let others ← missingFields item rest
      if b then pure others else pure (f :: others)

def validateQuestionData (item : Val) : Except Err Unit := do
  let missing ← missingFields item requiredFields
  if missing.isEmpty then pure ()
  else .error (.validation ("Missing required fields: " ++ toString missing))

/-- `SetupRepository._create_question_node` (parameter dict built from
subscripts, then one `MERGE ... SET` statement). -/
def questionNodeOp (item : Val) (now : Int) : Except Err Op := do
  let qid ← item.sub "id"
  let titleV ← item.sub "question_title"
  let questionV ← item.sub "question"
  let difficultyV ← item.sub "difficulty"
  let stepV ← item.sub "step_no"
  let subStepV ← item.sub "sub_step_no"
  let seqV ← item.sub "sl_no"
  pure (.node "Question" "id" qid (.qUpd titleV questionV difficultyV stepV subStepV seqV now))

/-- Loop body shared by `_create_standard_concepts` and `_create_subconcepts`:
`if name and name.strip():` then a node merge and an edge merge. -/
def conceptEntryOps (label edgeType : String) (qid : Val) (now : Int)
    (nameV : Val) : Except Err (List Op) := do
  if nameV.truthy then
    let s ← nameV.strip
    if !s.isEmpty then
      pure [.node label "name" (.str s) (.cUpd now),
            .edge edgeType "Question" "id" qid label "name" (.str s)]
    else pure []
  else pure []

/-- The `for concept_name in concepts` loop, emitting each iteration's
statements in order. -/
def conceptLoopOps (label edgeType : String) (qid : Val) (now : Int) :
    List Val → Except Err (List Op)
  | [] => .ok []
  | nameV :: rest => do
      let ops1 ← conceptEntryOps label edgeType qid now nameV
      let rest1 ← conceptLoopOps label edgeType qid now rest
      pure (ops1 ++ rest1)

/-- `_create_standard_concepts` / `_create_subconcepts`: both read the field
passed as `field` and early-return when it is missing or falsy. -/
def conceptPhaseOps (field label edgeType : String) (item : Val) (qid : Val)
    (now : Int) : Except Err (List Op) := do
  let concepts ← item.getAttr field (.arr [])
  if concepts.truthy then
    let elems ← concepts.iter
    conceptLoopOps label edgeType qid now elems
  else pure []

/-- Loop body of `_create_solution_approaches`. -/
def approachEntryOps (qid : Val) (now : Int) (approachV : Val) :
    Except Err (List Op) := do
  let nameRaw ← approachV.getAttr "approach_name" (.str "")
  let name ← nameRaw.strip
  let explRaw ← approachV.getAttr "explanation" (.str "")
  let expl ← explRaw.strip
  if !name.isEmpty then
    pure [.node "SolutionApproach" "name" (.str name) (.saUpd expl now),
          .edge "HAS_SOLUTION_APPROACH" "Question" "id" qid
            "SolutionApproach" "name" (.str name)]
  else pure []

/-- The `for approach in approaches` loop. -/
def approachLoopOps (qid : Val) (now : Int) : List Val → Except Err (List Op)
  | [] => .ok []
  | approachV :: rest => do
      let ops1 ← approachEntryOps qid now approachV
      let rest1 ← approachLoopOps qid now rest
      pure (ops1 ++ rest1)

/-- `_create_solution_approaches`. -/
def approachPhaseOps (item : Val) (qid : Val) (now : Int) :
    Except Err (List Op) := do
  let approaches ← item.getAttr "solution_approaches" (.arr [])
  if approaches.truthy then
    let elems ← approaches.iter
    approachLoopOps qid now elems
  else pure []

/-- The ordered statement list of
`SetupRepository.populate_question_and_concepts_transaction`.  NOTE (faithful
to the source): `_create_standard_concepts` reads `item.get('sub_concepts', [])`,
the same field `_create_subconcepts` reads; the `standard_concepts` field is
never consulted. -/
def compileItem (item : Val) (now : Int) : Except Err (List Op) := do
  validateQuestionData item
  let qOp ← questionNodeOp item now
  let qid ← item.sub "id"
  let cOps ← conceptPhaseOps "sub_concepts" "Concept" "INVOLVES_CONCEPT" item qid now
  let scOps ← conceptPhaseOps "sub_concepts" "SubConcept" "INVOLVES_SUBCONCEPT" item qid now
  let saOps ← approachPhaseOps item qid now
  pure (qOp :: (cOps ++ scOps ++ saOps))

/-- `populate_question_and_concepts_transaction` executed through
`DatabaseManager.execute_transaction`: all statements commit atomically, and
an exception rolls the whole transaction back (modelled by `.error` carrying
no graph). -/
def populateTx (g : Graph) (item : Val) (now : Int) : Except Err Graph :=
  (compileItem item now).map (runOps g)

/-! ## The batch ingestion pipeline (DataPopulationService) -/

/-- Result dict of `SetupRepository._validate_data_items`. -/
structure ValidationSplit where
  valid_items : List Val
  invalid_items : List Val
  invalid_item_ids : List Val
deriving DecidableEq, Repr

/-- `item.get('id', 'N/A')`, as the reporting paths use it. -/
def idOrNA (item : Val) : Except Err Val := item.getAttr "id" (.str "N/A")

/-- Total variant of `idOrNA` describing its value on dict items. -/
def idOrNAD (item : Val) : Val :=
  match item with
  | .obj kvs => objGetD kvs "id" (.str "N/A")
  | _ => .str "N/A"

/-- `SetupRepository._validate_data_items`: partition the items, catching only
`DataValidationError` (any other exception propagates). -/
def validateDataItems : List Val → Except Err ValidationSplit
  | [] => .ok ⟨[], [], []⟩
  | item :: rest =>
    match validateQuestionData item with
    | .ok _ => do
        let r ← validateDataItems rest
        pure ⟨item :: r.valid_items, r.invalid_items, r.invalid_item_ids⟩
    | .error (.validation _) => do
        let iid ← idOrNA item
        let r ← validateDataItems rest
        pure ⟨r.valid_items, item :: r.invalid_items, iid :: r.invalid_item_ids⟩
    | .error e => .error e

/-- Per-batch counters of `DataPopulationService._process_batch`. -/
structure BatchStats where
  processed : Nat
  failed : Nat
  failed_ids : List Val
deriving DecidableEq, Repr

/-- `DataPopulationService._process_batch`: one transaction per item through
the injected `runTx`; any exception from a transaction is caught and the item
recorded as failed (the `item.get` in the handler itself can raise for
non-dict items, which propagates). -/
def processBatch (runTx : Graph → Val → Except Err Graph) :
    Graph → List Val → Except Err (Graph × BatchStats)
  | g, [] => .ok (g, ⟨0, 0, []⟩)
  | g, item :: rest =>
    match runTx g item with
    | .ok g1 => do
        let (gf, st) ← processBatch runTx g1 rest
        pure (gf, ⟨st.processed + 1, st.failed, st.failed_ids⟩)
    | .error _ => do
        let iid ← idOrNA item
        let (gf, st) ← processBatch runTx g rest
        pure (gf, ⟨st.processed, st.failed + 1, iid :: st.failed_ids⟩)

/-- Contiguous batches of size `bsPred + 1`
(`valid_data[i:i + batch_size]` slicing); the list's length bounds the number
of slices, so it doubles as structural fuel. -/
def chunksOfFuel (bsPred : Nat) : Nat → List Val → List (List Val)
  | 0, _ => []
  | _, [] => []
  | fuel + 1, x :: xs =>
      (x :: xs.take bsPred) :: chunksOfFuel bsPred fuel (xs.drop bsPred)

def chunksOf (bsPred : Nat) (l : List Val) : List (List Val) :=
  chunksOfFuel bsPred l.length l

/-- The batch loop of `_process_data_in_batches`, accumulating counters in
batch order. -/
def processValidBatches (runTx : Graph → Val → Except Err Graph) :
    Graph → List (List Val) → Except Err (Graph × BatchStats)
  | g, [] => .ok (g, ⟨0, 0, []⟩)
  | g, b :: bs => do
      let (g1, st1) ← processBatch runTx g b
      let (gf, st) ← processValidBatches runTx g1 bs
      pure (gf, ⟨st1.processed + st.processed, st1.failed + st.failed,
                 st1.failed_ids ++ st.failed_ids⟩)

/-- The stats dict returned by `_process_data_in_batches`. -/
structure Stats where
  total_items : Nat
  processed_items : Nat
  failed_items : Nat
  invalid_items : Nat
  failed_item_ids : List Val
  invalid_item_ids : List Val
deriving DecidableEq, Repr

/-- `DataPopulationService._process_data_in_batches`.  `runTx` is the injected
`db_manager.execute_transaction(setup_repo.populate_question_and_concepts_transaction, ·)`
capability.  A zero batch size makes Python's `range` raise `ValueError`. -/
def processDataInBatches (runTx : Graph → Val → Except Err Graph) (g : Graph)
    (data : List Val) (batchSize : Nat) : Except Err (Graph × Stats) := do
  let split ← validateDataItems data
  if batchSize == 0 then .error (.typeErr "range() arg 3 must not be zero")
  else do
    let (gf, agg) ← processValidBatches runTx g (chunksOf (batchSize - 1) split.valid_items)
    pure (gf, ⟨data.length, agg.processed, agg.failed, split.invalid_items.length,
               agg.failed_ids, split.invalid_item_ids⟩)

/-- `DataPopulationService.populate_from_data_list` (its `try/except` only
logs and re-raises). -/
def populateFromDataList (runTx : Graph → Val → Except Err Graph) (g : Graph)
    (data : List Val) (batchSize : Nat) : Except Err (Graph × Stats) :=
  processDataInBatches runTx g data batchSize

/-- `DataPopulationService._load_json_data`: `parsed` is the outcome of
`json.load` on the file (`none` = malformed JSON, wrapped in
`DataValidationError`); a well-formed value that is not an array raises
`DataValidationError` directly. -/
def loadJsonData (parsed : Option Val) : Except Err (List Val) :=
  match parsed with
  | none => .error (.validation "Invalid JSON format")
  | some (.arr xs) => .ok xs
  | some _ => .error (.validation "JSON file must contain an array of objects")

/-- `DataPopulationService.populate_from_json_file` on an existing file whose
parse outcome is `parsed` (its `try/except` only logs and re-raises). -/
def populateFromJsonFile (runTx : Graph → Val → Except Err Graph) (g : Graph)
    (parsed : Option Val) (batchSize : Nat) : Except Err (Graph × Stats) := do
  let data ← loadJsonData parsed
  processDataInBatches runTx g data batchSize

/-! ## The query layer (QuestionRepository) -/

/-- The row shape of the `RETURN` clause shared by the question queries. -/
structure Row where
  id : Val
  title : Val
  content : Val
  difficulty : Val
  step_number : Val
  sub_step_number : Val
  sequence_number : Val
  standard_concepts : Val
  sub_concepts : Val
  solution_approaches : Val
deriving DecidableEq, Repr

/-- The projection
`RETURN q.id as id, q.title as title, q.content as content, ...,
q.substep_number as sub_step_number, ..., q.solution_approaches as solution_approaches`
(the query layer reads the property names of `QuestionRepository.create_question`,
not the ones the upsert engine writes). -/
def projectQuestionRow (n : Node) : Row :=
  { id := getProp n.props "id"
    title := getProp n.props "title"
    content := getProp n.props "content"
    difficulty := getProp n.props "difficulty"
    step_number := getProp n.props "step_number"
    sub_step_number := getProp n.props "substep_number"
    sequence_number := getProp n.props "sequence_number"
    standard_concepts := getProp n.props "standard_concepts"
    sub_concepts := getProp n.props "sub_concepts"
    solution_approaches := getProp n.props "solution_approaches" }

/-- `EXISTS { MATCH (s:Student {student_id: $sid})-[:MASTERED]->(q) }`. -/
def hasMasteredFrom (g : Graph) (studentId : String) (q : Node) : Bool :=
  g.hasNode "Student" "student_id" (.str studentId) &&
  g.edges.any (fun e =>
    e.relType == "MASTERED" && e.srcLabel == "Student" && e.srcKey == "student_id" &&
    e.srcVal == .str studentId && e.dstLabel == "Question" && e.dstKey == "id" &&
    e.dstVal == getProp q.props "id")

/-- Kind rank used by `ORDER BY ... ASC` across property kinds; `null` sorts
last, list and map values tie among themselves (no claim depends on the
cross-kind order). -/
def valRank : Val → Nat
  | .int _ => 0
  | .bool _ => 1
  | .str _ => 2
  | .arr _ => 3
  | .obj _ => 4
  | .null => 5

/-- `ORDER BY ... ASC` comparison of two property values. -/
def Val.keyLE (a b : Val) : Bool :=
  match a, b with
  | .int x, .int y => x ≤ y
  | .str x, .str y => x ≤ y
  | .bool x, .bool y => !x || y
  | .arr _, .arr _ => true
  | .obj _, .obj _ => true
  | .null, .null => true
  | a, b => valRank a < valRank b

/-- The three-key ordering
`ORDER BY q.step_number ASC, q.substep_number ASC, q.sequence_number ASC`
on projected rows (later keys break exact ties of earlier ones). -/
def rowKeyLE (a b : Row) : Bool :=
  if a.step_number = b.step_number then
    if a.sub_step_number = b.sub_step_number then
      Val.keyLE a.sequence_number b.sequence_number
    else Val.keyLE a.sub_step_number b.sub_step_number
  else Val.keyLE a.step_number b.step_number

def insertSorted (le : Row → Row → Bool) (x : Row) : List Row → List Row
  | [] => [x]
  | y :: ys => if le x y then x :: y :: ys else y :: insertSorted le x ys

/-- The sort performed by `ORDER BY` (modelled as an insertion sort; the claims
depend only on the output being ordered and a permutation of the input). -/
def sortRows (le : Row → Row → Bool) : List Row → List Row
  | [] => []
  | x :: xs => insertSorted le x (sortRows le xs)

/-- `QuestionRepository.find_unmastered_questions_for_student`. -/
def findUnmasteredQuestionsForStudent (g : Graph) (studentId : String)
    (limit : Nat) : List Row :=
  (sortRows rowKeyLE
    ((g.nodes.filter (fun n =>
        n.label == "Question" && !(hasMasteredFrom g studentId n))).map
      projectQuestionRow)).take limit

/-- The `SolutionApproach` dataclass as built by `_build_question_from_data`. -/
structure SolutionApproachM where
  name : Val
  explanation : Val
deriving DecidableEq, Repr

/-- The `Question` dataclass as built by `_build_question_from_data`. -/
structure QuestionM where
  id : Val
  title : Val
  content : Val
  difficulty : Val
  step_number : Val
  sub_step_number : Val
  sequence_number : Val
  standard_concepts : Val
  sub_concepts : Val
  solution_approaches : List SolutionApproachM
deriving DecidableEq, Repr

/-- `QuestionRepository._build_question_from_data`: a missing or falsy
`solution_approaches` projection yields an empty list; non-dict entries are
skipped. -/
def buildQuestionFromData (data : Row) : Except Err QuestionM := do
  let sas ←
    if data.solution_approaches.truthy then do
      let elems ← data.solution_approaches.iter
      pure (elems.foldr (fun a acc =>
        match a with
        | .obj kvs =>
            { name := objGetD kvs "name" (.str ""),
              explanation := objGetD kvs "explanation" (.str "") } :: acc
        | _ => acc) [])
    else pure []
  pure { id := data.id, title := data.title, content := data.content,
         difficulty := data.difficulty, step_number := data.step_number,
         sub_step_number := data.sub_step_number,
         sequence_number := data.sequence_number,
         standard_concepts := data.standard_concepts,
         sub_concepts := data.sub_concepts, solution_approaches := sas }

/-- `QuestionRepository.find_question_by_id`: first matching row, or `none`. -/
def findQuestionById (g : Graph) (questionId : String) :
    Except Err (Option QuestionM) :=
  match (g.nodes.filter (fun n =>
      n.label == "Question" && getProp n.props "id" == .str questionId)).map
      projectQuestionRow with
  | [] => .ok none
  | data :: _ => (buildQuestionFromData data).map some

/-! ## The progress mutation layer (StudentRepository, RecommendationService) -/

/-- Shared shape of `mark_question_as_attempted` / `mark_question_as_mastered`:
`MATCH (s:Student {student_id}) MATCH (q:Question {id})
MERGE (s)-[r:REL]->(q) SET r.timestamp = datetime(), s.last_active = datetime()`
— a no-op when either node is missing. -/
def markStudentQuestionEdge (g : Graph) (rel : String) (sid qid : String)
    (now : Int) : Graph :=
  if g.hasNode "Student" "student_id" (.str sid) &&
     g.hasNode "Question" "id" (.str qid) then
    let g1 := g.mergeEdge rel "Student" "student_id" (.str sid)
      "Question" "id" (.str qid) (fun p => setProp p "timestamp" (.int now))
    g1.mergeNode "Student" "student_id" (.str sid)
      (fun p => setProp p "last_active" (.int now))
  else g

/-- `StudentRepository.mark_question_as_attempted` (one auto-commit session
via `execute_write_query`). -/
def markQuestionAsAttempted (g : Graph) (sid qid : String) (now : Int) : Graph :=
  markStudentQuestionEdge g "ATTEMPTED" sid qid now

/-- `StudentRepository.mark_question_as_mastered` (one auto-commit session). -/
def markQuestionAsMastered (g : Graph) (sid qid : String) (now : Int) : Graph :=
  markStudentQuestionEdge g "MASTERED" sid qid now

/-- `StudentRepository.mark_subconcepts_as_mastered` (one auto-commit
session): reads `q.sub_concepts` as a node property, `UNWIND`s it (`null`
produces no rows, a scalar one row), skips names with no `SubConcept` node. -/
def markSubconceptsAsMastered (g : Graph) (sid qid : String) (now : Int) : Graph :=
  if g.hasNode "Student" "student_id" (.str sid) then
    (g.nodes.filter (nodeMatches "Question" "id" (.str qid))).foldl (fun g q =>
      let names :=
        match getProp q.props "sub_concepts" with
        | .arr xs => xs
        | .null => []
        | v => [v]
      names.foldl (fun g nm =>
        if g.hasNode "SubConcept" "name" nm then
          let g1 := g.mergeEdge "MASTERED" "Student" "student_id" (.str sid)
            "SubConcept" "name" nm (fun p => p)
          g1.mergeNode "Student" "student_id" (.str sid)
            (fun p => setProp p "last_active" (.int now))
        else g) g) g
  else g

/-- The committed store states produced by
`RecommendationService.complete_question(sid, qid, is_mastered)`.

The source wraps a closure in `db_manager.execute_transaction`, but the
closure ignores its `tx` argument and calls the three `StudentRepository`
methods, each of which opens its own session through `execute_write_query`
and auto-commits.  Every element of this list is therefore a store state
visible to a concurrent reader. -/
def completeQuestionStates (g : Graph) (sid qid : String) (isMastered : Bool)
    (now : Int) : List Graph :=
  let g1 := markQuestionAsAttempted g sid qid now
  if isMastered then
    let g2 := markQuestionAsMastered g1 sid qid now
    let g3 := markSubconceptsAsMastered g2 sid qid now
    [g1, g2, g3]
  else [g1]

/-- Final state of `complete_question`. -/
def completeQuestion (g : Graph) (sid qid : String) (isMastered : Bool)
    (now : Int) : Graph :=
  (completeQuestionStates g sid qid isMastered now).getLastD g

/-! ## Fault-injection harness for the isolation claim -/

/-- A store runner that fails exactly on the items selected by `fails`
(modelling a per-item transaction constructed to fail, e.g. by a store-level
constraint conflict) and otherwise behaves as `runTx`. -/
def injectFaults (fails : Val → Bool) (runTx : Graph → Val → Except Err Graph) :
    Graph → Val → Except Err Graph :=
  fun g item =>
    if fails item then .error (.typeErr "store constraint conflict") else runTx g item

/-- Sequentially apply `runTx` to each item, keeping the previous state when a
transaction fails (each item's transaction commits or rolls back alone). -/
def runAll (runTx : Graph → Val → Except Err Graph) (g : Graph)
    (items : List Val) : Graph :=
  items.foldl (fun g item =>
    match runTx g item with
    | .ok g1 => g1
    | .error _ => g) g

instance {e a : Type} [DecidableEq e] [DecidableEq a] : DecidableEq (Except e a)
  | .ok x, .ok y => decidable_of_iff (x = y) (by simp)
  | .error x, .error y => decidable_of_iff (x = y) (by simp)
  | .ok _, .error _ => isFalse (by simp)
  | .error _, .ok _ => isFalse (by simp)

/-! ## Lemmas about property maps -/

theorem hasPropK_nil (k : String) : hasPropK [] k = false := rfl

theorem hasPropK_cons {kv : String × Val} {p : Props} {k : String} :
    hasPropK (kv :: p) k = ((kv.1 == k) || hasPropK p k) := by
  simp [hasPropK]

theorem setProp_cons_ne {kv : String × Val} {p : Props} {k : String} {v : Val}
    (h : ¬ kv.1 = k) :
    setProp (kv :: p) k v = kv :: setProp p k v := by
  unfold setProp
  rw [hasPropK_cons]
  by_cases hp : hasPropK p k <;> simp [hp, h]

theorem setProp_cons_eq {kv : String × Val} {p : Props} {k : String} {v : Val}
    (h : kv.1 = k) :
    setProp (kv :: p) k v
      = (k, v) :: p.map (fun e => if e.1 == k then (k, v) else e) := by
  unfold setProp
  rw [hasPropK_cons]
  simp [h]

theorem getProp_map_rep_ne {p : Props} {k k' : String} {v : Val}
    (h : ¬ k = k') :
    getProp (p.map (fun e => if e.1 = k then (k, v) else e)) k' = getProp p k' := by
  induction p with
  | nil => rfl
  | cons kv p ih =>
      by_cases hkv : kv.1 = k
      · have h2 : ¬ kv.1 = k' := by rw [hkv]; exact h
        simp [getProp, hkv, h, h2, ih]
      · simp [getProp, hkv, ih]

theorem setProp_map_form {p : Props} {k : String} {v : Val} :
    p.map (fun e => if e.1 == k then (k, v) else e)
      = p.map (fun e => if e.1 = k then (k, v) else e) := by
  simp

theorem getProp_setProp_self (p : Props) (k : String) (v : Val) :
    getProp (setProp p k v) k = v := by
  induction p with
  | nil => simp [setProp, hasPropK, getProp]
  | cons kv p ih =>
      by_cases hkv : kv.1 = k
      · rw [setProp_cons_eq hkv, setProp_map_form]
        simp [getProp]
      · rw [setProp_cons_ne hkv]
        simp [getProp, hkv, ih]

theorem getProp_setProp_ne (p : Props) {k k' : String} (v : Val)
    (h : ¬ k = k') :
    getProp (setProp p k v) k' = getProp p k' := by
  induction p with
  | nil => simp [setProp, hasPropK, getProp, h]
  | cons kv p ih =>
      by_cases hkv : kv.1 = k
      · rw [setProp_cons_eq hkv, setProp_map_form]
        have h2 : ¬ kv.1 = k' := by rw [hkv]; exact h
        simp [getProp, h, h2, getProp_map_rep_ne h]
      · rw [setProp_cons_ne hkv]
        simp [getProp, ih]

theorem hasPropK_map_rep {p : Props} {k k' : String} {v : Val}
    (h : ¬ k = k') :
    hasPropK (p.map (fun e => if e.1 = k then (k, v) else e)) k' = hasPropK p k' := by
  induction p with
  | nil => rfl
  | cons kv p ih =>
      by_cases hkv : kv.1 = k
      · have h2 : ¬ kv.1 = k' := by rw [hkv]; exact h
        simp [hasPropK_cons, hkv, h, h2, ih]
      · simp [hasPropK_cons, hkv, ih]

theorem hasPropK_setProp (p : Props) (k k' : String) (v : Val) :
    hasPropK (setProp p k v) k' = (hasPropK p k' || k == k') := by
  induction p with
  | nil => simp [setProp, hasPropK]
  | cons kv p ih =>
      by_cases hkv : kv.1 = k
      · rw [setProp_cons_eq hkv, setProp_map_form]
        rw [hasPropK_cons, hasPropK_cons]
        by_cases hkk : k = k'
        · simp [hkk]
        · have h2 : ¬ kv.1 = k' := by rw [hkv]; exact hkk
          have hb1 : (k == k') = false := beq_eq_false_iff_ne.mpr hkk
          have hb2 : (kv.1 == k') = false := beq_eq_false_iff_ne.mpr h2
          simp [hb1, hb2, hasPropK_map_rep hkk]
      · rw [setProp_cons_ne hkv]
        rw [hasPropK_cons, hasPropK_cons, ih]
        by_cases h1 : kv.1 = k' <;> simp [h1, Bool.or_assoc]

/-! ## Sequences of SET items -/

/-- A sequence of `SET` items with precomputed values, applied left to right
(each of the source's `SET` templates is such a sequence). -/
def setSeq (kvs : Props) (p : Props) : Props :=
  kvs.foldl (fun q kv => setProp q kv.1 kv.2) p

/-- The entry that a `SET` sequence turns an existing entry into. -/
def repEntry (kvs : Props) (e : String × Val) : String × Val :=
  match kvs.find? (fun x => x.1 == e.1) with
  | some x => x
  | none => e

theorem repEntry_nil (e : String × Val) : repEntry [] e = e := rfl

theorem repEntry_key (kvs : Props) (e : String × Val) :
    (repEntry kvs e).1 = e.1 := by
  unfold repEntry
  cases hf : kvs.find? (fun x => x.1 == e.1) with
  | none => rfl
  | some x => simpa using List.find?_some hf

theorem setProp_of_mem {p : Props} {k : String} {v : Val}
    (h : hasPropK p k = true) :
    setProp p k v = p.map (fun e => if e.1 = k then (k, v) else e) := by
  rw [setProp, if_pos h, setProp_map_form]

theorem setProp_of_not_mem {p : Props} {k : String} {v : Val}
    (h : hasPropK p k = false) :
    setProp p k v = p ++ [(k, v)] := by
  rw [setProp, h]
  simp

theorem setSeq_nil (p : Props) : setSeq [] p = p := rfl

theorem setSeq_cons (kv : String × Val) (kvs : Props) (p : Props) :
    setSeq (kv :: kvs) p = setSeq kvs (setProp p kv.1 kv.2) := rfl

theorem hasPropK_setSeq (kvs p : Props) (k : String) :
    hasPropK (setSeq kvs p) k = (hasPropK p k || kvs.any (fun x => x.1 == k)) := by
  induction kvs generalizing p with
  | nil => simp [setSeq]
  | cons kv kvs ih =>
      rw [setSeq_cons, ih, hasPropK_setProp]
      simp [Bool.or_assoc]

theorem getProp_setSeq_notin {kvs : Props} {k : String}
    (h : ∀ x ∈ kvs, ¬ x.1 = k) (p : Props) :
    getProp (setSeq kvs p) k = getProp p k := by
  induction kvs generalizing p with
  | nil => rfl
  | cons kv kvs ih =>
      rw [setSeq_cons, ih (fun x hx => h x (by simp [hx]))]
      exact getProp_setProp_ne p _ (h kv (by simp))

theorem find?_key_eq_none {kvs : Props} {k : String}
    (h : ¬ k ∈ kvs.map Prod.fst) :
    kvs.find? (fun x => x.1 == k) = none := by
  rw [List.find?_eq_none]
  intro x hx hc
  exact h (List.mem_map.mpr ⟨x, hx, (beq_iff_eq.mp hc)⟩)

/-- The normal form of a `SET` sequence with distinct keys: existing entries
are rewritten in place, missing keys are appended in sequence order. -/
theorem setSeq_norm (kvs : Props) (hnd : (kvs.map Prod.fst).Nodup) (p : Props) :
    setSeq kvs p
      = p.map (repEntry kvs) ++ kvs.filter (fun x => !(hasPropK p x.1)) := by
  induction kvs generalizing p with
  | nil =>
      rw [setSeq_nil]
      have : p.map (repEntry []) = p := by
        rw [List.map_congr_left (fun e _ => repEntry_nil e)]
        simp
      simp [this]
  | cons kv kvs ih =>
      obtain ⟨k, v⟩ := kv
      have hnd2 : (k :: kvs.map Prod.fst).Nodup := by simpa using hnd
      have hk : ¬ k ∈ kvs.map Prod.fst := (List.nodup_cons.mp hnd2).1
      have hnd' : (kvs.map Prod.fst).Nodup := (List.nodup_cons.mp hnd2).2
      rw [setSeq_cons, ih hnd']
      have hfilter : kvs.filter (fun x => !(hasPropK (setProp p k v) x.1))
          = kvs.filter (fun x => !(hasPropK p x.1)) := by
        apply List.filter_congr
        intro x hx
        have hxk : ¬ (k = x.1) := by
          intro hc
          exact hk (List.mem_map.mpr ⟨x, hx, hc.symm⟩)
        rw [hasPropK_setProp]
        simp [beq_eq_false_iff_ne.mpr hxk]
      rw [hfilter]
      have hrepA : repEntry kvs (k, v) = (k, v) := by
        unfold repEntry
        rw [show kvs.find? (fun x => x.1 == (k, v).1) = none from find?_key_eq_none hk]
      have hrep : ∀ e : String × Val,
          repEntry kvs (if e.1 = k then (k, v) else e) = repEntry ((k, v) :: kvs) e := by
        intro e
        by_cases he : e.1 = k
        · rw [if_pos he, hrepA]
          unfold repEntry
          subst he
          simp [List.find?]
        · rw [if_neg he]
          unfold repEntry
          have hb : ((k : String) == e.1) = false :=
            beq_eq_false_iff_ne.mpr (fun hc => he hc.symm)
          simp [List.find?, hb]
      by_cases hmem : hasPropK p k
      · rw [setProp_of_mem hmem]
        rw [List.map_map]
        have hmaps : p.map (repEntry kvs ∘ fun e => if e.1 = k then (k, v) else e)
            = p.map (repEntry ((k, v) :: kvs)) :=
          List.map_congr_left (fun e _ => hrep e)
        rw [hmaps]
        have : ((k, v) :: kvs).filter (fun x => !(hasPropK p x.1))
            = kvs.filter (fun x => !(hasPropK p x.1)) := by
          simp [List.filter, hmem]
        rw [this]
      · rw [setProp_of_not_mem (by simpa using hmem)]
        rw [List.map_append]
        have h1 : p.map (repEntry kvs) = p.map (repEntry ((k, v) :: kvs)) := by
          apply List.map_congr_left
          intro e he
          have hek : ¬ e.1 = k := by
            intro hc
            have : hasPropK p k = true := by
              unfold hasPropK
              exact List.any_eq_true.mpr ⟨e, he, by simp [hc]⟩
            simp [this] at hmem
          rw [← hrep e, if_neg hek]
        have h2 : ([(k, v)] : Props).map (repEntry kvs) = [(k, v)] := by
          simp [repEntry, find?_key_eq_none hk]
        have h3 : ((k, v) :: kvs).filter (fun x => !(hasPropK p x.1))
            = (k, v) :: kvs.filter (fun x => !(hasPropK p x.1)) := by
          simp [List.filter, hmem]
        rw [h1, h2, h3]
        simp

theorem repEntry_repEntry {kvs1 kvs2 : Props} (e : String × Val)
    (hsub : ∀ s : String, s ∈ kvs1.map Prod.fst → s ∈ kvs2.map Prod.fst) :
    repEntry kvs2 (repEntry kvs1 e) = repEntry kvs2 e := by
  unfold repEntry
  cases hf : kvs1.find? (fun x => x.1 == e.1) with
  | none => rfl
  | some x =>
      have hx1 : x.1 = e.1 := by simpa using List.find?_some hf
      have hmem : x ∈ kvs1 := List.mem_of_find?_eq_some hf
      have hkey : e.1 ∈ kvs2.map Prod.fst := hsub e.1 (by
        rw [← hx1]
        exact List.mem_map.mpr ⟨x, hmem, rfl⟩)
      have hsome : (kvs2.find? (fun y => y.1 == e.1)).isSome := by
        rw [List.find?_isSome]
        obtain ⟨z, hz, hz1⟩ := List.mem_map.mp hkey
        exact ⟨z, hz, by simp [hz1]⟩
      obtain ⟨y, hy⟩ := Option.isSome_iff_exists.mp hsome
      rw [hx1, hy]

theorem filter_map_repEntry {kvs1 kvs2 : Props}
    (hk : kvs1.map Prod.fst = kvs2.map Prod.fst)
    (hnd : (kvs2.map Prod.fst).Nodup) (P : String → Bool) :
    (kvs1.filter (fun x => P x.1)).map (repEntry kvs2)
      = kvs2.filter (fun x => P x.1) := by
  induction kvs1 generalizing kvs2 with
  | nil =>
      cases kvs2 with
      | nil => rfl
      | cons y ys => simp at hk
  | cons x xs ih =>
      cases kvs2 with
      | nil => simp at hk
      | cons y ys =>
          simp only [List.map_cons, List.cons.injEq] at hk
          obtain ⟨hxy, htl⟩ := hk
          have hnd2 : (y.1 :: ys.map Prod.fst).Nodup := by simpa using hnd
          have hynotin : ¬ y.1 ∈ ys.map Prod.fst := (List.nodup_cons.mp hnd2).1
          have hnd' : (ys.map Prod.fst).Nodup := (List.nodup_cons.mp hnd2).2
          have hrepx : repEntry (y :: ys) x = y := by
            unfold repEntry
            have : (y.1 == x.1) = true := by simp [hxy]
            simp [List.find?, this]
          have hreptl : ∀ z ∈ xs.filter (fun x => P x.1),
              repEntry (y :: ys) z = repEntry ys z := by
            intro z hz
            have hzmem : z ∈ xs := (List.mem_filter.mp hz).1
            have hzkey : z.1 ∈ ys.map Prod.fst := by
              rw [← htl]
              exact List.mem_map.mpr ⟨z, hzmem, rfl⟩
            have hzny : ¬ (y.1 = z.1) := fun hc => hynotin (hc ▸ hzkey)
            unfold repEntry
            have : (y.1 == z.1) = false := beq_eq_false_iff_ne.mpr hzny
            simp [List.find?, this]
          by_cases hP : P x.1
          · have hPy : P y.1 = true := by rw [← hxy]; exact hP
            rw [List.filter_cons, if_pos (by simp [hP]), List.filter_cons,
              if_pos (by simp [hPy])]
            rw [List.map_cons, hrepx]
            congr 1
            rw [List.map_congr_left hreptl]
            exact ih htl hnd'
          · have hPy : P y.1 = false := by rw [← hxy]; simpa using hP
            rw [List.filter_cons, if_neg (by simp [hP]), List.filter_cons,
              if_neg (by simp [hPy])]
            rw [List.map_congr_left hreptl]
            exact ih htl hnd'

/-- Re-applying a `SET` sequence over the same keys absorbs an earlier
application (the later values win, whatever the earlier ones were). -/
theorem setSeq_absorb {kvs1 kvs2 : Props} (p : Props)
    (hk : kvs1.map Prod.fst = kvs2.map Prod.fst)
    (hnd : (kvs2.map Prod.fst).Nodup) :
    setSeq kvs2 (setSeq kvs1 p) = setSeq kvs2 p := by
  have hnd1 : (kvs1.map Prod.fst).Nodup := by rw [hk]; exact hnd
  have hsub : ∀ s : String, s ∈ kvs1.map Prod.fst → s ∈ kvs2.map Prod.fst := by
    intro s hs
    rw [← hk]
    exact hs
  have hfe : kvs2.filter (fun x => !(hasPropK (setSeq kvs1 p) x.1)) = [] := by
    rw [List.filter_eq_nil_iff]
    intro x hx
    have hxk : x.1 ∈ kvs1.map Prod.fst := by
      rw [hk]
      exact List.mem_map.mpr ⟨x, hx, rfl⟩
    obtain ⟨z, hz, hz1⟩ := List.mem_map.mp hxk
    have hhp : hasPropK (setSeq kvs1 p) x.1 = true := by
      rw [hasPropK_setSeq]
      have : kvs1.any (fun x2 => x2.1 == x.1) = true :=
        List.any_eq_true.mpr ⟨z, hz, by simp [hz1]⟩
      simp [this]
    simp [hhp]
  calc setSeq kvs2 (setSeq kvs1 p)
      = (setSeq kvs1 p).map (repEntry kvs2)
          ++ kvs2.filter (fun x => !(hasPropK (setSeq kvs1 p) x.1)) :=
        setSeq_norm kvs2 hnd _
    _ = (setSeq kvs1 p).map (repEntry kvs2) := by rw [hfe]; simp
    _ = (p.map (repEntry kvs1)
          ++ kvs1.filter (fun x => !(hasPropK p x.1))).map (repEntry kvs2) := by
        rw [setSeq_norm kvs1 hnd1]
    _ = (p.map (repEntry kvs1)).map (repEntry kvs2)
          ++ (kvs1.filter (fun x => !(hasPropK p x.1))).map (repEntry kvs2) := by
        rw [List.map_append]
    _ = p.map (repEntry kvs2) ++ kvs2.filter (fun x => !(hasPropK p x.1)) := by
        rw [List.map_map]
        congr 1
        · exact List.map_congr_left (fun e _ => repEntry_repEntry e hsub)
        · exact filter_map_repEntry hk hnd (fun s => !(hasPropK p s))
    _ = setSeq kvs2 p := (setSeq_norm kvs2 hnd p).symm

/-! ## The SET templates as SET sequences -/

theorem coalesce_coalesce (v d : Val) : coalesce (coalesce v d) d = coalesce v d := by
  cases v <;> cases d <;> rfl

/-- The `SET` items of a template, with values as read from the pre-state. -/
def NodeUpd.kvList : NodeUpd → Props → Props
  | .qUpd t q d s ss sq now, _ =>
      [("question_title", t), ("question", q), ("difficulty", d),
       ("step_number", s), ("sub_step_number", ss), ("sequence_number", sq),
       ("created_at", .int now), ("updated_at", .int now)]
  | .cUpd now, p =>
      [("created_at", coalesce (getProp p "created_at") (.int now)),
       ("updated_at", .int now)]
  | .saUpd e now, p =>
      [("explanation", .str e),
       ("created_at", coalesce (getProp p "created_at") (.int now)),
       ("updated_at", .int now)]

/-- The property keys a template writes. -/
def NodeUpd.keyList : NodeUpd → List String
  | .qUpd _ _ _ _ _ _ _ =>
      ["question_title", "question", "difficulty", "step_number",
       "sub_step_number", "sequence_number", "created_at", "updated_at"]
  | .cUpd _ => ["created_at", "updated_at"]
  | .saUpd _ _ => ["explanation", "created_at", "updated_at"]

theorem NodeUpd.kvList_keys (u : NodeUpd) (p : Props) :
    (u.kvList p).map Prod.fst = u.keyList := by
  cases u <;> rfl

theorem NodeUpd.keyList_nodup (u : NodeUpd) : u.keyList.Nodup := by
  cases u <;> simp only [NodeUpd.keyList] <;> decide

theorem NodeUpd.kvList_keys_nodup (u : NodeUpd) (p : Props) :
    ((u.kvList p).map Prod.fst).Nodup := by
  rw [NodeUpd.kvList_keys]
  exact u.keyList_nodup

theorem NodeUpd.apply_eq_setSeq (u : NodeUpd) (p : Props) :
    u.apply p = setSeq (u.kvList p) p := by
  cases u <;> rfl

theorem NodeUpd.getProp_apply_notin (u : NodeUpd) (p : Props) (k : String)
    (hk : ¬ k ∈ u.keyList) :
    getProp (u.apply p) k = getProp p k := by
  rw [NodeUpd.apply_eq_setSeq]
  apply getProp_setSeq_notin
  intro x hx hc
  apply hk
  rw [← NodeUpd.kvList_keys u p]
  exact hc ▸ List.mem_map.mpr ⟨x, hx, rfl⟩

theorem NodeUpd.qUpd_absorb (t q d s ss sq t2 q2 d2 s2 ss2 sq2 : Val)
    (n n2 : Int) (p : Props) :
    (NodeUpd.qUpd t2 q2 d2 s2 ss2 sq2 n2).apply
        ((NodeUpd.qUpd t q d s ss sq n).apply p)
      = (NodeUpd.qUpd t2 q2 d2 s2 ss2 sq2 n2).apply p := by
  rw [NodeUpd.apply_eq_setSeq, NodeUpd.apply_eq_setSeq, NodeUpd.apply_eq_setSeq]
  exact setSeq_absorb p rfl (NodeUpd.kvList_keys_nodup _ _)

theorem NodeUpd.getProp_cUpd_created (n : Int) (p : Props) :
    getProp ((NodeUpd.cUpd n).apply p) "created_at"
      = coalesce (getProp p "created_at") (.int n) := by
  show getProp (setProp (setProp p "created_at" _) "updated_at" _) "created_at" = _
  rw [getProp_setProp_ne _ _ (by decide), getProp_setProp_self]

theorem NodeUpd.cUpd_absorb (n : Int) (p : Props) :
    (NodeUpd.cUpd n).apply ((NodeUpd.cUpd n).apply p)
      = (NodeUpd.cUpd n).apply p := by
  have hkv : (NodeUpd.cUpd n).kvList ((NodeUpd.cUpd n).apply p)
      = (NodeUpd.cUpd n).kvList p := by
    simp [NodeUpd.kvList, NodeUpd.getProp_cUpd_created, coalesce_coalesce]
  conv_lhs => rw [NodeUpd.apply_eq_setSeq, hkv]
  conv_rhs => rw [NodeUpd.apply_eq_setSeq]
  exact setSeq_absorb p rfl (NodeUpd.kvList_keys_nodup _ _)

theorem NodeUpd.getProp_saUpd_created (e : String) (n : Int) (p : Props) :
    getProp ((NodeUpd.saUpd e n).apply p) "created_at"
      = coalesce (getProp p "created_at") (.int n) := by
  show getProp (setProp (setProp (setProp p "explanation" _) "created_at" _)
    "updated_at" _) "created_at" = _
  rw [getProp_setProp_ne _ _ (by decide), getProp_setProp_self]

theorem NodeUpd.saUpd_absorb (e1 e2 : String) (n : Int) (p : Props) :
    (NodeUpd.saUpd e2 n).apply ((NodeUpd.saUpd e1 n).apply p)
      = (NodeUpd.saUpd e2 n).apply p := by
  have hkv : (NodeUpd.saUpd e2 n).kvList ((NodeUpd.saUpd e1 n).apply p)
      = (NodeUpd.saUpd e2 n).kvList p := by
    simp [NodeUpd.kvList, NodeUpd.getProp_saUpd_created, coalesce_coalesce]
  conv_lhs => rw [NodeUpd.apply_eq_setSeq, hkv, NodeUpd.apply_eq_setSeq]
  conv_rhs => rw [NodeUpd.apply_eq_setSeq]
  exact setSeq_absorb p rfl (NodeUpd.kvList_keys_nodup _ _)

/-! ## Graph operation lemmas -/

/-- The selector of an op (which entity it merges), with the `SET` part
dropped. -/
inductive Sel where
  | node (label idKey : String) (idVal : Val)
  | edge (relType srcLabel srcKey : String) (srcVal : Val)
      (dstLabel dstKey : String) (dstVal : Val)
deriving DecidableEq, Repr

def Op.sel : Op → Sel
  | .node l k v _ => .node l k v
  | .edge rt sl sk sv dl dk dv => .edge rt sl sk sv dl dk dv

/-- The unique-key property a label is merged on throughout the source
(`Question` by `id`, every other label by `name`). -/
def labelKey (label : String) : String :=
  if label = "Question" then "id" else "name"

/-- Well-formedness of an op as emitted by the source: every selector uses
its label's unique-key property. -/
def GoodOp : Op → Prop
  | .node L k _ _ => k = labelKey L
  | .edge _ sl sk _ dl dk _ => sk = labelKey sl ∧ dk = labelKey dl

theorem labelKey_cases (L : String) :
    labelKey L = "id" ∨ labelKey L = "name" := by
  unfold labelKey
  by_cases h : L = "Question" <;> simp [h]

theorem NodeUpd.apply_preserves_key (u : NodeUpd) (p : Props) (k : String)
    (hk : k = "id" ∨ k = "name") :
    getProp (u.apply p) k = getProp p k := by
  apply NodeUpd.getProp_apply_notin
  rcases hk with h | h <;> subst h <;>
    cases u <;> simp only [NodeUpd.keyList] <;> decide

theorem list_map_id_of {α : Type} (l : List α) (f : α → α)
    (h : ∀ x ∈ l, f x = x) : l.map f = l := by
  induction l with
  | nil => rfl
  | cons x xs ih => simp [h x (by simp), ih (fun y hy => h y (by simp [hy]))]

theorem list_any_congr {α : Type} {l : List α} {f g : α → Bool}
    (h : ∀ x ∈ l, f x = g x) : l.any f = l.any g := by
  induction l with
  | nil => rfl
  | cons x xs ih =>
      simp only [List.any_cons, h x (by simp),
        ih (fun y hy => h y (by simp [hy]))]

theorem nodeMatches_updIf (L k : String) (v : Val) (L' k' : String) (v' : Val)
    (upd' : Props → Props) (hkp : ∀ p, getProp (upd' p) k = getProp p k)
    (n : Node) :
    nodeMatches L k v
      (if nodeMatches L' k' v' n then { n with props := upd' n.props } else n)
      = nodeMatches L k v n := by
  by_cases h : nodeMatches L' k' v' n
  · simp only [h, if_true]
    unfold nodeMatches
    simp [hkp]
  · simp [h]

/-- Updating matching nodes in place (the update branch of `MERGE`). -/
def mapNodesSel (L k : String) (v : Val) (upd : Props → Props) (g : Graph) :
    Graph :=
  { g with nodes := g.nodes.map (fun n =>
      if nodeMatches L k v n then { n with props := upd n.props } else n) }

theorem mergeNode_eq_mapNodesSel {g : Graph} {L k : String} {v : Val}
    {upd : Props → Props} (h : g.hasNode L k v = true) :
    g.mergeNode L k v upd = mapNodesSel L k v upd g := by
  unfold Graph.mergeNode mapNodesSel
  rw [if_pos h]

theorem mapNodesSel_edges (L k : String) (v : Val) (upd : Props → Props)
    (g : Graph) : (mapNodesSel L k v upd g).edges = g.edges := rfl

theorem mergeNode_edges (g : Graph) (L k : String) (v : Val)
    (upd : Props → Props) : (g.mergeNode L k v upd).edges = g.edges := by
  unfold Graph.mergeNode
  by_cases h : g.hasNode L k v <;> simp [h]

theorem mergeEdge_nodes (g : Graph) (rt sl sk : String) (sv : Val)
    (dl dk : String) (dv : Val) (upd : Props → Props) :
    (g.mergeEdge rt sl sk sv dl dk dv upd).nodes = g.nodes := by
  unfold Graph.mergeEdge
  by_cases h1 : g.hasNode sl sk sv && g.hasNode dl dk dv
  · rw [if_pos h1]
    by_cases h2 : g.hasEdge rt sl sk sv dl dk dv <;> simp [h2]
  · rw [if_neg h1]

theorem hasNode_mapNodesSel (L k : String) (v : Val) (upd : Props → Props)
    (g : Graph) (L2 k2 : String) (v2 : Val)
    (hkp : ∀ p, getProp (upd p) k2 = getProp p k2) :
    (mapNodesSel L k v upd g).hasNode L2 k2 v2 = g.hasNode L2 k2 v2 := by
  unfold Graph.hasNode mapNodesSel
  simp only [List.any_map]
  exact list_any_congr (fun n _ => nodeMatches_updIf L2 k2 v2 L k v upd hkp n)

theorem hasNode_mergeNode_mono {g : Graph} {L k : String} {v : Val}
    (L' k' : String) (v' : Val) (upd' : Props → Props)
    (hkp : ∀ p, getProp (upd' p) k = getProp p k)
    (h : g.hasNode L k v = true) :
    (g.mergeNode L' k' v' upd').hasNode L k v = true := by
  unfold Graph.mergeNode
  by_cases hm : g.hasNode L' k' v'
  · rw [if_pos hm]
    show (mapNodesSel L' k' v' upd' g).hasNode L k v = true
    rw [hasNode_mapNodesSel _ _ _ _ _ _ _ _ hkp]
    exact h
  · rw [if_neg hm]
    unfold Graph.hasNode at h ⊢
    simp only [List.any_append]
    simp [h]

theorem hasNode_mergeEdge (g : Graph) (rt sl sk : String) (sv : Val)
    (dl dk : String) (dv : Val) (upd : Props → Props) (L k : String) (v : Val) :
    (g.mergeEdge rt sl sk sv dl dk dv upd).hasNode L k v = g.hasNode L k v := by
  unfold Graph.hasNode
  rw [mergeEdge_nodes]

theorem hasEdge_mergeNode (g : Graph) (L k : String) (v : Val)
    (upd : Props → Props) (rt sl sk : String) (sv : Val) (dl dk : String)
    (dv : Val) :
    (g.mergeNode L k v upd).hasEdge rt sl sk sv dl dk dv
      = g.hasEdge rt sl sk sv dl dk dv := by
  unfold Graph.hasEdge
  rw [mergeNode_edges]

theorem edgeMatches_updIf (rt sl sk : String) (sv : Val) (dl dk : String)
    (dv : Val) (X : Edge → Bool) (upd : Props → Props) (e : Edge) :
    edgeMatches rt sl sk sv dl dk dv
      (if X e then { e with props := upd e.props } else e)
      = edgeMatches rt sl sk sv dl dk dv e := by
  by_cases h : X e <;> simp [h, edgeMatches]

theorem hasEdge_mergeEdge_mono {g : Graph} {rt sl sk : String} {sv : Val}
    {dl dk : String} {dv : Val}
    (rt2 sl2 sk2 : String) (sv2 : Val) (dl2 dk2 : String) (dv2 : Val)
    (upd2 : Props → Props)
    (h : g.hasEdge rt sl sk sv dl dk dv = true) :
    (g.mergeEdge rt2 sl2 sk2 sv2 dl2 dk2 dv2 upd2).hasEdge rt sl sk sv dl dk dv
      = true := by
  unfold Graph.mergeEdge
  by_cases h1 : g.hasNode sl2 sk2 sv2 && g.hasNode dl2 dk2 dv2
  · rw [if_pos h1]
    by_cases h2 : g.hasEdge rt2 sl2 sk2 sv2 dl2 dk2 dv2
    · rw [if_pos h2]
      unfold Graph.hasEdge at h ⊢
      simp only [List.any_map]
      exact (list_any_congr (fun e _ =>
        edgeMatches_updIf rt sl sk sv dl dk dv _ upd2 e)).trans h
    · rw [if_neg h2]
      unfold Graph.hasEdge at h ⊢
      simp only [List.any_append]
      simp [h]
  · rw [if_neg h1]
    exact h

theorem graph_eq_of {a b : Graph} (h1 : a.nodes = b.nodes)
    (h2 : a.edges = b.edges) : a = b := by
  cases a
  cases b
  simp_all

theorem mergeNode_nodes_of_has {g : Graph} {L k : String} {v : Val}
    {upd : Props → Props} (h : g.hasNode L k v = true) :
    (g.mergeNode L k v upd).nodes = g.nodes.map (fun n =>
      if nodeMatches L k v n then { n with props := upd n.props } else n) := by
  unfold Graph.mergeNode
  rw [if_pos h]

theorem mergeNode_nodes_of_not {g : Graph} {L k : String} {v : Val}
    {upd : Props → Props} (h : g.hasNode L k v = false) :
    (g.mergeNode L k v upd).nodes
      = g.nodes ++ [{ label := L, props := upd [(k, v)] }] := by
  unfold Graph.mergeNode
  rw [if_neg (by simp [h])]

theorem nodeMatches_not_both {L k : String} {v : Val} {L' k' : String}
    {v' : Val} (hsel : ¬ L = L' ∨ (k = k' ∧ ¬ v = v')) (n : Node)
    (h1 : nodeMatches L k v n = true) (h2 : nodeMatches L' k' v' n = true) :
    False := by
  unfold nodeMatches at h1 h2
  simp only [Bool.and_eq_true, beq_iff_eq] at h1 h2
  rcases hsel with hL | ⟨hk, hv⟩
  · exact hL (h1.1.symm ▸ h2.1.symm ▸ rfl)
  · apply hv
    rw [← h1.2, ← h2.2, hk]

theorem mapNodesSel_mergeNode_comm {g : Graph} {L k : String} {v : Val}
    {upd : Props → Props} {L' k' : String} {v' : Val} {upd' : Props → Props}
    (hsel : ¬ L = L' ∨ (k = k' ∧ ¬ v = v'))
    (hkp : ∀ p, getProp (upd p) k' = getProp p k')
    (hkp' : ∀ p, getProp (upd' p) k = getProp p k) :
    (mapNodesSel L k v upd g).mergeNode L' k' v' upd'
      = mapNodesSel L k v upd (g.mergeNode L' k' v' upd') := by
  have hhn : (mapNodesSel L k v upd g).hasNode L' k' v' = g.hasNode L' k' v' :=
    hasNode_mapNodesSel _ _ _ _ _ _ _ _ hkp
  by_cases hm : g.hasNode L' k' v'
  · apply graph_eq_of
    · rw [mergeNode_nodes_of_has (by rw [hhn]; exact hm)]
      show (g.nodes.map _).map _ = ((g.mergeNode L' k' v' upd').nodes).map _
      rw [mergeNode_nodes_of_has hm, List.map_map, List.map_map]
      apply List.map_congr_left
      intro n _
      show (fun m => if nodeMatches L' k' v' m then { m with props := upd' m.props } else m)
          ((fun m => if nodeMatches L k v m then { m with props := upd m.props } else m) n)
        = (fun m => if nodeMatches L k v m then { m with props := upd m.props } else m)
          ((fun m => if nodeMatches L' k' v' m then { m with props := upd' m.props } else m) n)
      by_cases hA : nodeMatches L k v n
      · have hB : nodeMatches L' k' v' n = false := by
          by_cases hB : nodeMatches L' k' v' n
          · exact absurd (nodeMatches_not_both hsel n hA hB) (fun x => x)
          · simpa using hB
        have hBupd : nodeMatches L' k' v' { n with props := upd n.props } = false := by
          have := nodeMatches_updIf L' k' v' L k v upd hkp n
          rw [if_pos hA] at this
          rw [this]
          exact hB
        simp [hA, hB, hBupd]
      · by_cases hB : nodeMatches L' k' v' n
        · have hAupd : nodeMatches L k v { n with props := upd' n.props } = false := by
            have := nodeMatches_updIf L k v L' k' v' upd' hkp' n
            rw [if_pos hB] at this
            rw [this]
            simpa using hA
          simp [hA, hB, hAupd]
        · simp [hA, hB]
    · rw [mergeNode_edges, mapNodesSel_edges, mapNodesSel_edges, mergeNode_edges]
  · apply graph_eq_of
    · rw [mergeNode_nodes_of_not (by rw [hhn]; simpa using hm)]
      show (g.nodes.map _) ++ _ = ((g.mergeNode L' k' v' upd').nodes).map _
      rw [mergeNode_nodes_of_not (by simpa using hm), List.map_append]
      congr 1
      have hnew : nodeMatches L k v { label := L', props := upd' [(k', v')] } = false := by
        unfold nodeMatches
        rcases hsel with hL | ⟨hk, hv⟩
        · simp
          intro hc
          exact absurd hc.symm hL
        · have hval : getProp (upd' [(k', v')]) k = v' := by
            rw [hkp' _]
            subst hk
            simp [getProp]
          simp [hval]
          intro _
          exact fun hc => hv hc.symm
      simp [hnew]
    · rw [mergeNode_edges, mapNodesSel_edges, mapNodesSel_edges, mergeNode_edges]

theorem hasEdge_mapNodesSel (L k : String) (v : Val) (upd : Props → Props)
    (g : Graph) (rt sl sk : String) (sv : Val) (dl dk : String) (dv : Val) :
    (mapNodesSel L k v upd g).hasEdge rt sl sk sv dl dk dv
      = g.hasEdge rt sl sk sv dl dk dv := rfl

theorem mergeEdge_edges_expr (g : Graph) (rt sl sk : String) (sv : Val)
    (dl dk : String) (dv : Val) (upd2 : Props → Props) :
    (g.mergeEdge rt sl sk sv dl dk dv upd2).edges
      = if g.hasNode sl sk sv && g.hasNode dl dk dv then
          (if g.hasEdge rt sl sk sv dl dk dv then
            g.edges.map (fun e =>
              if edgeMatches rt sl sk sv dl dk dv e then
                { e with props := upd2 e.props }
              else e)
          else g.edges ++
            [{ relType := rt, srcLabel := sl, srcKey := sk, srcVal := sv,
               dstLabel := dl, dstKey := dk, dstVal := dv, props := upd2 [] }])
        else g.edges := by
  unfold Graph.mergeEdge
  by_cases h1 : g.hasNode sl sk sv && g.hasNode dl dk dv
  · rw [if_pos h1, if_pos h1]
    by_cases h2 : g.hasEdge rt sl sk sv dl dk dv
    · rw [if_pos h2, if_pos h2]
    · rw [if_neg h2, if_neg h2]
  · rw [if_neg h1, if_neg h1]

theorem mapNodesSel_mergeEdge_comm {g : Graph} {L k : String} {v : Val}
    {upd : Props → Props} {rt sl sk : String} {sv : Val} {dl dk : String}
    {dv : Val} {upd2 : Props → Props}
    (hkpS : ∀ p, getProp (upd p) sk = getProp p sk)
    (hkpD : ∀ p, getProp (upd p) dk = getProp p dk) :
    (mapNodesSel L k v upd g).mergeEdge rt sl sk sv dl dk dv upd2
      = mapNodesSel L k v upd (g.mergeEdge rt sl sk sv dl dk dv upd2) := by
  have hS : (mapNodesSel L k v upd g).hasNode sl sk sv = g.hasNode sl sk sv :=
    hasNode_mapNodesSel _ _ _ _ _ _ _ _ hkpS
  have hD : (mapNodesSel L k v upd g).hasNode dl dk dv = g.hasNode dl dk dv :=
    hasNode_mapNodesSel _ _ _ _ _ _ _ _ hkpD
  apply graph_eq_of
  · rw [mergeEdge_nodes]
    show (mapNodesSel L k v upd g).nodes
      = ((g.mergeEdge rt sl sk sv dl dk dv upd2).nodes).map _
    rw [mergeEdge_nodes]
    rfl
  · rw [mergeEdge_edges_expr, hS, hD, hasEdge_mapNodesSel]
    show _ = (g.mergeEdge rt sl sk sv dl dk dv upd2).edges
    rw [mergeEdge_edges_expr]
    rfl

theorem mergeNode_mapNodesSel_absorb {g : Graph} {L k : String} {v : Val}
    {upd upd2 : Props → Props} (h : g.hasNode L k v = true)
    (hkp : ∀ p, getProp (upd p) k = getProp p k)
    (habs : ∀ p, upd2 (upd p) = upd2 p) :
    (mapNodesSel L k v upd g).mergeNode L k v upd2 = g.mergeNode L k v upd2 := by
  have hhn : (mapNodesSel L k v upd g).hasNode L k v = true := by
    rw [hasNode_mapNodesSel _ _ _ _ _ _ _ _ hkp]
    exact h
  apply graph_eq_of
  · rw [mergeNode_nodes_of_has hhn, mergeNode_nodes_of_has h]
    show (g.nodes.map _).map _ = g.nodes.map _
    rw [List.map_map]
    apply List.map_congr_left
    intro n _
    show (fun m => if nodeMatches L k v m then { m with props := upd2 m.props } else m)
        ((fun m => if nodeMatches L k v m then { m with props := upd m.props } else m) n)
      = (fun m => if nodeMatches L k v m then { m with props := upd2 m.props } else m) n
    by_cases hA : nodeMatches L k v n
    · have hA2 : nodeMatches L k v { n with props := upd n.props } = true := by
        have := nodeMatches_updIf L k v L k v upd hkp n
        rw [if_pos hA] at this
        rw [this]
        exact hA
      simp [hA, hA2, habs]
    · simp [hA]
  · rw [mergeNode_edges, mergeNode_edges, mapNodesSel_edges]

/-! ## Fixedness of merges -/

/-- All nodes matching a selector exist and their property maps satisfy `P`. -/
def MatchProp (L k : String) (v : Val) (P : Props → Prop) (g : Graph) : Prop :=
  (∃ n ∈ g.nodes, nodeMatches L k v n = true) ∧
  (∀ n ∈ g.nodes, nodeMatches L k v n = true → P n.props)

theorem getProp_single (k : String) (v : Val) : getProp [(k, v)] k = v := by
  simp [getProp]

theorem newNode_not_matches {L k : String} {v : Val} {L' k' : String}
    {v' : Val} {upd' : Props → Props}
    (hsel : ¬ L = L' ∨ (k = k' ∧ ¬ v = v'))
    (hkp' : ∀ p, getProp (upd' p) k = getProp p k) :
    nodeMatches L k v { label := L', props := upd' [(k', v')] } = false := by
  unfold nodeMatches
  rcases hsel with hL | ⟨hk, hv⟩
  · simp
    intro hc
    exact absurd hc.symm hL
  · have hval : getProp (upd' [(k', v')]) k = v' := by
      rw [hkp' _]
      subst hk
      simp [getProp]
    simp [hval]
    intro _
    exact fun hc => hv hc.symm

theorem mergeNode_MatchProp {g : Graph} {L k : String} {v : Val}
    {upd : Props → Props} {P : Props → Prop}
    (hkp : ∀ p, getProp (upd p) k = getProp p k)
    (hP : ∀ p, P (upd p)) :
    MatchProp L k v P (g.mergeNode L k v upd) := by
  by_cases hm : g.hasNode L k v
  · constructor
    · obtain ⟨n0, hn0, hm0⟩ := List.any_eq_true.mp hm
      refine ⟨(fun n => if nodeMatches L k v n then { n with props := upd n.props } else n) n0,
        ?_, ?_⟩
      · rw [mergeNode_nodes_of_has hm]
        exact List.mem_map.mpr ⟨n0, hn0, rfl⟩
      · show nodeMatches L k v (if nodeMatches L k v n0 then _ else n0) = true
        rw [nodeMatches_updIf L k v L k v upd hkp n0]
        exact hm0
    · intro m hmem hmatch
      rw [mergeNode_nodes_of_has hm] at hmem
      obtain ⟨n, hn, rfl⟩ := List.mem_map.mp hmem
      by_cases hA : nodeMatches L k v n
      · simp only [hA, if_true]
        exact hP _
      · rw [if_neg hA] at hmatch
        exact absurd hmatch hA
  · constructor
    · refine ⟨{ label := L, props := upd [(k, v)] }, ?_, ?_⟩
      · rw [mergeNode_nodes_of_not (by simpa using hm)]
        simp
      · unfold nodeMatches
        simp [hkp, getProp_single]
    · intro m hmem hmatch
      rw [mergeNode_nodes_of_not (by simpa using hm)] at hmem
      rcases List.mem_append.mp hmem with hold | hnew
      · exfalso
        exact hm (List.any_eq_true.mpr ⟨m, hold, hmatch⟩)
      · simp at hnew
        subst hnew
        exact hP _

theorem mergeNode_of_MatchProp {g : Graph} {L k : String} {v : Val}
    {upd : Props → Props}
    (h : MatchProp L k v (fun p => upd p = p) g) :
    g.mergeNode L k v upd = g := by
  obtain ⟨⟨n0, hn0, hm0⟩, hall⟩ := h
  have hm : g.hasNode L k v = true := List.any_eq_true.mpr ⟨n0, hn0, hm0⟩
  apply graph_eq_of
  · rw [mergeNode_nodes_of_has hm]
    apply list_map_id_of
    intro n hn
    by_cases hA : nodeMatches L k v n
    · rw [if_pos hA, hall n hn hA]
    · rw [if_neg hA]
  · exact mergeNode_edges g L k v upd

theorem MatchProp_mergeNode_other {g : Graph} {L k : String} {v : Val}
    {P : Props → Prop} {L' k' : String} {v' : Val} {upd' : Props → Props}
    (hsel : ¬ L = L' ∨ (k = k' ∧ ¬ v = v'))
    (hkp' : ∀ p, getProp (upd' p) k = getProp p k)
    (h : MatchProp L k v P g) :
    MatchProp L k v P (g.mergeNode L' k' v' upd') := by
  obtain ⟨⟨n0, hn0, hm0⟩, hall⟩ := h
  by_cases hm : g.hasNode L' k' v'
  · constructor
    · refine ⟨(fun n => if nodeMatches L' k' v' n then { n with props := upd' n.props } else n) n0,
        ?_, ?_⟩
      · rw [mergeNode_nodes_of_has hm]
        exact List.mem_map.mpr ⟨n0, hn0, rfl⟩
      · show nodeMatches L k v (if nodeMatches L' k' v' n0 then _ else n0) = true
        rw [nodeMatches_updIf L k v L' k' v' upd' hkp' n0]
        exact hm0
    · intro m hmem hmatch
      rw [mergeNode_nodes_of_has hm] at hmem
      obtain ⟨n, hn, rfl⟩ := List.mem_map.mp hmem
      have hmatch_n : nodeMatches L k v n = true := by
        rw [← nodeMatches_updIf L k v L' k' v' upd' hkp' n]
        exact hmatch
      by_cases hB : nodeMatches L' k' v' n
      · exact absurd (nodeMatches_not_both hsel n hmatch_n hB) (fun x => x)
      · simp only [hB, Bool.false_eq_true, if_false]
        exact hall n hn hmatch_n
  · constructor
    · refine ⟨n0, ?_, hm0⟩
      rw [mergeNode_nodes_of_not (by simpa using hm)]
      exact List.mem_append.mpr (Or.inl hn0)
    · intro m hmem hmatch
      rw [mergeNode_nodes_of_not (by simpa using hm)] at hmem
      rcases List.mem_append.mp hmem with hold | hnew
      · exact hall m hold hmatch
      · simp at hnew
        subst hnew
        rw [newNode_not_matches hsel hkp'] at hmatch
        exact absurd hmatch (by simp)

theorem MatchProp_mergeEdge {g : Graph} {L k : String} {v : Val}
    {P : Props → Prop} (rt sl sk : String) (sv : Val) (dl dk : String)
    (dv : Val) (upd2 : Props → Props)
    (h : MatchProp L k v P g) :
    MatchProp L k v P (g.mergeEdge rt sl sk sv dl dk dv upd2) := by
  obtain ⟨⟨n0, hn0, hm0⟩, hall⟩ := h
  constructor
  · refine ⟨n0, ?_, hm0⟩
    rw [mergeEdge_nodes]
    exact hn0
  · intro m hmem hmatch
    rw [mergeEdge_nodes] at hmem
    exact hall m hmem hmatch

/-- An edge merge whose endpoints and edge already exist is a no-op. -/
def EdgeFixed (rt sl sk : String) (sv : Val) (dl dk : String) (dv : Val)
    (g : Graph) : Prop :=
  g.hasNode sl sk sv = true ∧ g.hasNode dl dk dv = true ∧
  g.hasEdge rt sl sk sv dl dk dv = true

theorem mergeEdge_of_EdgeFixed {g : Graph} {rt sl sk : String} {sv : Val}
    {dl dk : String} {dv : Val}
    (h : EdgeFixed rt sl sk sv dl dk dv g) :
    g.mergeEdge rt sl sk sv dl dk dv (fun p => p) = g := by
  obtain ⟨hs, hd, he⟩ := h
  unfold Graph.mergeEdge
  rw [if_pos (by simp [hs, hd]), if_pos he]
  apply graph_eq_of
  · rfl
  · show g.edges.map _ = g.edges
    apply list_map_id_of
    intro e he2
    by_cases hA : edgeMatches rt sl sk sv dl dk dv e
    · rw [if_pos hA]
    · rw [if_neg hA]

theorem mergeEdge_EdgeFixed {g : Graph} {rt sl sk : String} {sv : Val}
    {dl dk : String} {dv : Val} (upd2 : Props → Props)
    (hs : g.hasNode sl sk sv = true) (hd : g.hasNode dl dk dv = true) :
    EdgeFixed rt sl sk sv dl dk dv (g.mergeEdge rt sl sk sv dl dk dv upd2) := by
  refine ⟨?_, ?_, ?_⟩
  · rw [hasNode_mergeEdge]
    exact hs
  · rw [hasNode_mergeEdge]
    exact hd
  · unfold Graph.hasEdge
    rw [mergeEdge_edges_expr, if_pos (by simp [hs, hd])]
    by_cases he : g.hasEdge rt sl sk sv dl dk dv
    · rw [if_pos he]
      simp only [List.any_map]
      refine (list_any_congr (fun e _ =>
        edgeMatches_updIf rt sl sk sv dl dk dv _ upd2 e)).trans ?_
      exact he
    · rw [if_neg he]
      rw [List.any_append]
      simp [edgeMatches]

theorem EdgeFixed_mergeNode {g : Graph} {rt sl sk : String} {sv : Val}
    {dl dk : String} {dv : Val} {L' k' : String} {v' : Val}
    {upd' : Props → Props}
    (hkpS : ∀ p, getProp (upd' p) sk = getProp p sk)
    (hkpD : ∀ p, getProp (upd' p) dk = getProp p dk)
    (h : EdgeFixed rt sl sk sv dl dk dv g) :
    EdgeFixed rt sl sk sv dl dk dv (g.mergeNode L' k' v' upd') :=
  ⟨hasNode_mergeNode_mono L' k' v' upd' hkpS h.1,
   hasNode_mergeNode_mono L' k' v' upd' hkpD h.2.1,
   by rw [hasEdge_mergeNode]; exact h.2.2⟩

theorem EdgeFixed_mergeEdge {g : Graph} {rt sl sk : String} {sv : Val}
    {dl dk : String} {dv : Val} (rt2 sl2 sk2 : String) (sv2 : Val)
    (dl2 dk2 : String) (dv2 : Val) (upd2 : Props → Props)
    (h : EdgeFixed rt sl sk sv dl dk dv g) :
    EdgeFixed rt sl sk sv dl dk dv
      (g.mergeEdge rt2 sl2 sk2 sv2 dl2 dk2 dv2 upd2) :=
  ⟨by rw [hasNode_mergeEdge]; exact h.1,
   by rw [hasNode_mergeEdge]; exact h.2.1,
   hasEdge_mergeEdge_mono rt2 sl2 sk2 sv2 dl2 dk2 dv2 upd2 h.2.2⟩

/-! ## The second run of an op list is a no-op -/

theorem runOps_nil (g : Graph) : runOps g [] = g := rfl

theorem runOps_cons (g : Graph) (o : Op) (ops : List Op) :
    runOps g (o :: ops) = runOps (applyOp g o) ops := rfl

theorem runOps_append (g : Graph) (l1 l2 : List Op) :
    runOps g (l1 ++ l2) = runOps (runOps g l1) l2 :=
  List.foldl_append applyOp g l1 l2

theorem sel_disj {L k : String} {v : Val} {L2 k2 : String} {v2 : Val}
    (hk : k = labelKey L) (hk2 : k2 = labelKey L2)
    (hne : ¬ Sel.node L2 k2 v2 = Sel.node L k v) :
    ¬ L = L2 ∨ (k = k2 ∧ ¬ v = v2) := by
  by_cases hL : L = L2
  · right
    have hkk : k = k2 := by rw [hk, hk2, hL]
    refine ⟨hkk, ?_⟩
    intro hv
    exact hne (by rw [hL, hkk, hv])
  · left
    exact hL

theorem hasNode_applyOp_mono (o : Op) {g : Graph} {L k : String} {v : Val}
    (hk : k = "id" ∨ k = "name") (h : g.hasNode L k v = true) :
    (applyOp g o).hasNode L k v = true := by
  cases o with
  | node L2 k2 v2 u2 =>
      exact hasNode_mergeNode_mono L2 k2 v2 u2.apply
        (fun p => u2.apply_preserves_key p k hk) h
  | edge rt sl sk sv dl dk dv =>
      show (g.mergeEdge rt sl sk sv dl dk dv _).hasNode L k v = true
      rw [hasNode_mergeEdge]
      exact h

theorem hasNode_runOps_mono (ops : List Op) {g : Graph} {L k : String}
    {v : Val} (hk : k = "id" ∨ k = "name") (h : g.hasNode L k v = true) :
    (runOps g ops).hasNode L k v = true := by
  induction ops generalizing g with
  | nil => exact h
  | cons o rest ih =>
      rw [runOps_cons]
      exact ih (hasNode_applyOp_mono o hk h)

theorem mapNodesSel_applyOp_comm {g : Graph} {L k : String} {v : Val}
    (u : NodeUpd) (o : Op) (hk : k = labelKey L) (hgo : GoodOp o)
    (hsel : ¬ Op.sel o = Sel.node L k v) :
    applyOp (mapNodesSel L k v u.apply g) o
      = mapNodesSel L k v u.apply (applyOp g o) := by
  have hkid : k = "id" ∨ k = "name" := hk ▸ labelKey_cases L
  cases o with
  | node L2 k2 v2 u2 =>
      have hk2 : k2 = labelKey L2 := hgo
      have hk2id : k2 = "id" ∨ k2 = "name" := hk2 ▸ labelKey_cases L2
      exact mapNodesSel_mergeNode_comm (sel_disj hk hk2 hsel)
        (fun p => u.apply_preserves_key p k2 hk2id)
        (fun p => u2.apply_preserves_key p k hkid)
  | edge rt sl sk sv dl dk dv =>
      obtain ⟨hks, hkd⟩ := hgo
      have hksid : sk = "id" ∨ sk = "name" := hks ▸ labelKey_cases sl
      have hkdid : dk = "id" ∨ dk = "name" := hkd ▸ labelKey_cases dl
      show (mapNodesSel L k v u.apply g).mergeEdge rt sl sk sv dl dk dv (fun p => p)
          = mapNodesSel L k v u.apply (g.mergeEdge rt sl sk sv dl dk dv (fun p => p))
      exact mapNodesSel_mergeEdge_comm
        (fun p => u.apply_preserves_key p sk hksid)
        (fun p => u.apply_preserves_key p dk hkdid)

theorem mapNodesSel_runOps_comm {g : Graph} {L k : String} {v : Val}
    (u : NodeUpd) (ops : List Op) (hk : k = labelKey L)
    (h : ∀ o ∈ ops, GoodOp o ∧ ¬ Op.sel o = Sel.node L k v) :
    runOps (mapNodesSel L k v u.apply g) ops
      = mapNodesSel L k v u.apply (runOps g ops) := by
  induction ops generalizing g with
  | nil => rfl
  | cons o rest ih =>
      rw [runOps_cons, mapNodesSel_applyOp_comm u o hk (h o (by simp)).1
        (h o (by simp)).2, runOps_cons]
      exact ih (fun o2 h2 => h o2 (by simp [h2]))

/-- An op of the second run that a later same-selector node merge absorbs. -/
def AbsorbedLater (Y : Graph) (o : Op) (rest : List Op) : Prop :=
  ∃ L k v u, o = Op.node L k v u ∧ k = labelKey L ∧ Y.hasNode L k v = true ∧
    ∃ pre u2 post, rest = pre ++ (Op.node L k v u2) :: post ∧
      (∀ p, u2.apply (u.apply p) = u2.apply p) ∧
      (∀ o2 ∈ pre, GoodOp o2 ∧ ¬ Op.sel o2 = Sel.node L k v)

/-- Each op of the list leaves `Y` unchanged, or is absorbed by a later op. -/
def SecondRunNoop (Y : Graph) : List Op → Prop
  | [] => True
  | o :: rest => (applyOp Y o = Y ∨ AbsorbedLater Y o rest) ∧ SecondRunNoop Y rest

theorem secondRun_noop (Y : Graph) :
    ∀ ops : List Op, SecondRunNoop Y ops → runOps Y ops = Y
  | [], _ => rfl
  | o :: rest, ⟨ho, hrest⟩ => by
      rw [runOps_cons]
      rcases ho with hfix | habs
      · rw [hfix]
        exact secondRun_noop Y rest hrest
      · obtain ⟨L, k, v, u, rfl, hkey, hhas, pre, u2, post, hsplit, habs2, hpre⟩ := habs
        have hkid : k = "id" ∨ k = "name" := hkey ▸ labelKey_cases L
        rw [show applyOp Y (Op.node L k v u) = mapNodesSel L k v u.apply Y from
          mergeNode_eq_mapNodesSel hhas]
        rw [hsplit, runOps_append, runOps_cons]
        rw [mapNodesSel_runOps_comm u pre hkey hpre]
        have hZ : (runOps Y pre).hasNode L k v = true :=
          hasNode_runOps_mono pre hkid hhas
        rw [show applyOp (mapNodesSel L k v u.apply (runOps Y pre)) (Op.node L k v u2)
            = applyOp (runOps Y pre) (Op.node L k v u2) from
          mergeNode_mapNodesSel_absorb hZ
            (fun p => u.apply_preserves_key p k hkid) habs2]
        rw [← runOps_cons, ← runOps_append, ← hsplit]
        exact secondRun_noop Y rest hrest

theorem hasNode_mergeNode_self {g : Graph} {L k : String} {v : Val}
    {upd : Props → Props} (hkp : ∀ p, getProp (upd p) k = getProp p k) :
    (g.mergeNode L k v upd).hasNode L k v = true := by
  have h : MatchProp L k v (fun _ => True) (g.mergeNode L k v upd) :=
    mergeNode_MatchProp hkp (fun _ => trivial)
  obtain ⟨⟨n, hn, hm⟩, _⟩ := h
  exact List.any_eq_true.mpr ⟨n, hn, hm⟩

theorem MatchProp_runOps {g : Graph} {L k : String} {v : Val}
    {P : Props → Prop} (hk : k = labelKey L) (ops : List Op)
    (h2 : ∀ o ∈ ops, GoodOp o ∧ ¬ Op.sel o = Sel.node L k v)
    (h : MatchProp L k v P g) : MatchProp L k v P (runOps g ops) := by
  induction ops generalizing g with
  | nil => exact h
  | cons o rest ih =>
      rw [runOps_cons]
      refine ih (fun o2 ho2 => h2 o2 (by simp [ho2])) ?_
      obtain ⟨hgo, hsel⟩ := h2 o (by simp)
      cases o with
      | node L2 k2 v2 u2 =>
          have hkid : k = "id" ∨ k = "name" := hk ▸ labelKey_cases L
          have hk2 : k2 = labelKey L2 := hgo
          exact MatchProp_mergeNode_other (sel_disj hk hk2 hsel)
            (fun p => u2.apply_preserves_key p k hkid) h
      | edge rt sl sk sv dl dk dv =>
          exact MatchProp_mergeEdge rt sl sk sv dl dk dv _ h

theorem EdgeFixed_runOps {g : Graph} {rt sl sk : String} {sv : Val}
    {dl dk : String} {dv : Val} (ops : List Op)
    (hks : sk = "id" ∨ sk = "name") (hkd : dk = "id" ∨ dk = "name")
    (h : EdgeFixed rt sl sk sv dl dk dv g) :
    EdgeFixed rt sl sk sv dl dk dv (runOps g ops) := by
  induction ops generalizing g with
  | nil => exact h
  | cons o rest ih =>
      rw [runOps_cons]
      refine ih ?_
      cases o with
      | node L2 k2 v2 u2 =>
          exact EdgeFixed_mergeNode (fun p => u2.apply_preserves_key p sk hks)
            (fun p => u2.apply_preserves_key p dk hkd) h
      | edge rt2 sl2 sk2 sv2 dl2 dk2 dv2 =>
          exact EdgeFixed_mergeEdge rt2 sl2 sk2 sv2 dl2 dk2 dv2 _ h

theorem nodeOp_fixed (g : Graph) (l1 l2 : List Op) (L k : String) (v : Val)
    (u : NodeUpd) (hk : k = labelKey L)
    (hl2 : ∀ o2 ∈ l2, GoodOp o2 ∧ ¬ Op.sel o2 = Sel.node L k v)
    (hidem : ∀ p, u.apply (u.apply p) = u.apply p) :
    applyOp (runOps g (l1 ++ Op.node L k v u :: l2)) (Op.node L k v u)
      = runOps g (l1 ++ Op.node L k v u :: l2) := by
  rw [runOps_append, runOps_cons]
  have hkid : k = "id" ∨ k = "name" := hk ▸ labelKey_cases L
  have hM : MatchProp L k v (fun p => u.apply p = p)
      (applyOp (runOps g l1) (Op.node L k v u)) :=
    mergeNode_MatchProp (fun p => u.apply_preserves_key p k hkid)
      (fun p => hidem p)
  exact mergeNode_of_MatchProp (MatchProp_runOps hk l2 hl2 hM)

theorem edgeOp_fixed (g : Graph) (l1 l2 : List Op) (rt sl sk : String)
    (sv : Val) (dl dk : String) (dv : Val)
    (hks : sk = "id" ∨ sk = "name") (hkd : dk = "id" ∨ dk = "name")
    (hs : (runOps g l1).hasNode sl sk sv = true)
    (hd : (runOps g l1).hasNode dl dk dv = true) :
    applyOp (runOps g (l1 ++ Op.edge rt sl sk sv dl dk dv :: l2))
        (Op.edge rt sl sk sv dl dk dv)
      = runOps g (l1 ++ Op.edge rt sl sk sv dl dk dv :: l2) := by
  rw [runOps_append, runOps_cons]
  have hE : EdgeFixed rt sl sk sv dl dk dv
      (applyOp (runOps g l1) (Op.edge rt sl sk sv dl dk dv)) :=
    mergeEdge_EdgeFixed (fun p => p) hs hd
  exact mergeEdge_of_EdgeFixed (EdgeFixed_runOps l2 hks hkd hE)

theorem first_split {α : Type} (P : α → Prop) [DecidablePred P] :
    ∀ l : List α, (∃ x ∈ l, P x) →
      ∃ pre x post, l = pre ++ x :: post ∧ P x ∧ ∀ y ∈ pre, ¬ P y
  | [], h => by simp at h
  | a :: l, h => by
      by_cases ha : P a
      · exact ⟨[], a, l, rfl, ha, by simp⟩
      · have h2 : ∃ x ∈ l, P x := by
          obtain ⟨x, hx, hPx⟩ := h
          rcases List.mem_cons.mp hx with rfl | hx2
          · exact absurd hPx ha
          · exact ⟨x, hx2, hPx⟩
        obtain ⟨pre, x, post, hsp, hPx, hpre⟩ := first_split P l h2
        refine ⟨a :: pre, x, post, by simp [hsp], hPx, ?_⟩
        intro y hy
        rcases List.mem_cons.mp hy with rfl | hy2
        · exact ha
        · exact hpre y hy2

theorem build_SecondRunNoop (g : Graph) (allOps : List Op)
    (hA : ∀ o ∈ allOps, GoodOp o)
    (hB : ∀ L k v u u2, Op.node L k v u ∈ allOps → Op.node L k v u2 ∈ allOps →
          ∀ p, u2.apply (u.apply p) = u2.apply p)
    (hC : ∀ l1 rt sl sk sv dl dk dv l2,
          allOps = l1 ++ (Op.edge rt sl sk sv dl dk dv) :: l2 →
          (runOps g l1).hasNode sl sk sv = true ∧
          (runOps g l1).hasNode dl dk dv = true) :
    SecondRunNoop (runOps g allOps) allOps := by
  suffices h : ∀ l1 ops, allOps = l1 ++ ops → SecondRunNoop (runOps g allOps) ops by
    exact h [] allOps rfl
  intro l1 ops
  induction ops generalizing l1 with
  | nil =>
      intro _
      trivial
  | cons o rest ih =>
      intro hsplit
      refine ⟨?_, ih (l1 ++ [o]) (by rw [hsplit]; simp)⟩
      have homem : o ∈ allOps := by rw [hsplit]; simp
      cases o with
      | edge rt sl sk sv dl dk dv =>
          left
          obtain ⟨hs, hd⟩ := hC l1 rt sl sk sv dl dk dv rest hsplit
          obtain ⟨hks, hkd⟩ := hA _ homem
          have hksid : sk = "id" ∨ sk = "name" := hks ▸ labelKey_cases sl
          have hkdid : dk = "id" ∨ dk = "name" := hkd ▸ labelKey_cases dl
          rw [hsplit]
          exact edgeOp_fixed g l1 rest rt sl sk sv dl dk dv hksid hkdid hs hd
      | node L k v u =>
          have hk : k = labelKey L := hA _ homem
          have hkid : k = "id" ∨ k = "name" := hk ▸ labelKey_cases L
          by_cases hfind : ∃ o2 ∈ rest, Op.sel o2 = Sel.node L k v
          · right
            obtain ⟨pre, o2, post, hsplit2, hPo2, hpre⟩ :=
              first_split (fun o2 => Op.sel o2 = Sel.node L k v) rest hfind
            obtain ⟨u2, rfl⟩ : ∃ u2, o2 = Op.node L k v u2 := by
              cases o2 with
              | node L2 k2 v2 u2 =>
                  simp only [Op.sel, Sel.node.injEq] at hPo2
                  obtain ⟨rfl, rfl, rfl⟩ := hPo2
                  exact ⟨u2, rfl⟩
              | edge rt2 sl2 sk2 sv2 dl2 dk2 dv2 =>
                  simp [Op.sel] at hPo2
            have ho2mem : Op.node L k v u2 ∈ allOps := by
              rw [hsplit]
              simp [hsplit2]
            refine ⟨L, k, v, u, rfl, hk, ?_, pre, u2, post, hsplit2,
              hB L k v u u2 homem ho2mem, ?_⟩
            · rw [hsplit, runOps_append, runOps_cons]
              apply hasNode_runOps_mono rest hkid
              exact hasNode_mergeNode_self
                (fun p => u.apply_preserves_key p k hkid)
            · intro o3 ho3
              have : o3 ∈ allOps := by
                rw [hsplit]
                simp only [hsplit2]
                simp [ho3]
              exact ⟨hA _ this, hpre o3 ho3⟩
          · left
            rw [hsplit]
            apply nodeOp_fixed g l1 rest L k v u hk
            · intro o2 h2
              refine ⟨hA _ (by rw [hsplit]; simp [h2]), ?_⟩
              exact fun hsel => hfind ⟨o2, h2, hsel⟩
            · exact fun p => hB L k v u u homem homem p

/-! ## Shape of the compiled op list -/

theorem except_bind_ok {e a b : Type} {x : Except e a} {f : a → Except e b}
    {r : b} (h : (x >>= f) = .ok r) : ∃ y, x = .ok y ∧ f y = .ok r := by
  cases x with
  | error err => simp [Bind.bind, Except.bind] at h
  | ok y => exact ⟨y, rfl, by simpa [Bind.bind, Except.bind] using h⟩

theorem pure_ok {b : Type} (x : b) : (pure x : Except Err b) = Except.ok x := rfl

/-- Shape and `SET`-family of the statements one loop iteration emits. -/
def ChunkShape (qid : Val) (now : Int) (c : List Op) : Prop :=
  c = [] ∨
  ∃ L et s u, ¬ L = "Question" ∧
    (((L = "Concept" ∨ L = "SubConcept") ∧ u = NodeUpd.cUpd now) ∨
     (L = "SolutionApproach" ∧ ∃ e, u = NodeUpd.saUpd e now)) ∧
    c = [Op.node L "name" (.str s) u,
         Op.edge et "Question" "id" qid L "name" (.str s)]

theorem conceptEntryOps_chunk {label et : String} {qid : Val} {now : Int}
    {nameV : Val} {c : List Op}
    (hlab : label = "Concept" ∨ label = "SubConcept")
    (h : conceptEntryOps label et qid now nameV = .ok c) :
    ChunkShape qid now c := by
  have hnq : ¬ label = "Question" := by
    rcases hlab with rfl | rfl <;> decide
  unfold conceptEntryOps at h
  by_cases ht : nameV.truthy
  · simp only [ht, if_true] at h
    obtain ⟨s, hs, h2⟩ := except_bind_ok h
    by_cases he : s.isEmpty
    · simp only [he, Bool.not_true, Bool.false_eq_true, if_false] at h2
      left
      simpa [pure_ok] using h2.symm
    · simp only [he, Bool.not_false, if_true] at h2
      right
      refine ⟨label, et, s, NodeUpd.cUpd now, hnq, Or.inl ⟨hlab, rfl⟩, ?_⟩
      simpa [pure_ok] using h2.symm
  · simp only [ht, Bool.false_eq_true, if_false] at h
    left
    simpa [pure_ok] using h.symm

theorem approachEntryOps_chunk {qid : Val} {now : Int} {approachV : Val}
    {c : List Op} (h : approachEntryOps qid now approachV = .ok c) :
    ChunkShape qid now c := by
  unfold approachEntryOps at h
  obtain ⟨nameRaw, _, h⟩ := except_bind_ok h
  obtain ⟨name, _, h⟩ := except_bind_ok h
  obtain ⟨explRaw, _, h⟩ := except_bind_ok h
  obtain ⟨expl, _, h⟩ := except_bind_ok h
  by_cases he : name.isEmpty
  · simp only [he, Bool.not_true, Bool.false_eq_true, if_false] at h
    left
    simpa [pure_ok] using h.symm
  · simp only [he, Bool.not_false, if_true] at h
    right
    refine ⟨"SolutionApproach", "HAS_SOLUTION_APPROACH", name,
      NodeUpd.saUpd expl now, by decide, Or.inr ⟨rfl, expl, rfl⟩, ?_⟩
    simpa [pure_ok] using h.symm

theorem conceptLoopOps_chunks {label et : String} {qid : Val} {now : Int}
    (hlab : label = "Concept" ∨ label = "SubConcept") :
    ∀ {elems : List Val} {ops : List Op},
      conceptLoopOps label et qid now elems = .ok ops →
      ∃ chunks : List (List Op), ops = chunks.flatten ∧
        ∀ c ∈ chunks, ChunkShape qid now c := by
  intro elems
  induction elems with
  | nil =>
      intro ops h
      refine ⟨[], ?_, by simp⟩
      simpa [conceptLoopOps] using h.symm
  | cons nameV rest ih =>
      intro ops h
      unfold conceptLoopOps at h
      obtain ⟨ops1, h1, h⟩ := except_bind_ok h
      obtain ⟨rest1, h3, h⟩ := except_bind_ok h
      have hops : ops = ops1 ++ rest1 := by simpa [pure_ok] using h.symm
      obtain ⟨chunks, hj, hcs⟩ := ih h3
      refine ⟨ops1 :: chunks, by simp [hops, hj], ?_⟩
      intro c hc
      rcases List.mem_cons.mp hc with rfl | hc2
      · exact conceptEntryOps_chunk hlab h1
      · exact hcs c hc2

theorem approachLoopOps_chunks {qid : Val} {now : Int} :
    ∀ {elems : List Val} {ops : List Op},
      approachLoopOps qid now elems = .ok ops →
      ∃ chunks : List (List Op), ops = chunks.flatten ∧
        ∀ c ∈ chunks, ChunkShape qid now c := by
  intro elems
  induction elems with
  | nil =>
      intro ops h
      refine ⟨[], ?_, by simp⟩
      simpa [approachLoopOps] using h.symm
  | cons approachV rest ih =>
      intro ops h
      unfold approachLoopOps at h
      obtain ⟨ops1, h1, h⟩ := except_bind_ok h
      obtain ⟨rest1, h3, h⟩ := except_bind_ok h
      have hops : ops = ops1 ++ rest1 := by simpa [pure_ok] using h.symm
      obtain ⟨chunks, hj, hcs⟩ := ih h3
      refine ⟨ops1 :: chunks, by simp [hops, hj], ?_⟩
      intro c hc
      rcases List.mem_cons.mp hc with rfl | hc2
      · exact approachEntryOps_chunk h1
      · exact hcs c hc2

theorem conceptPhaseOps_chunks {field label et : String} {item qid : Val}
    {now : Int} {ops : List Op}
    (hlab : label = "Concept" ∨ label = "SubConcept")
    (h : conceptPhaseOps field label et item qid now = .ok ops) :
    ∃ chunks : List (List Op), ops = chunks.flatten ∧
      ∀ c ∈ chunks, ChunkShape qid now c := by
  unfold conceptPhaseOps at h
  obtain ⟨concepts, _, h⟩ := except_bind_ok h
  by_cases ht : concepts.truthy
  · simp only [ht, if_true] at h
    obtain ⟨elems, _, h⟩ := except_bind_ok h
    exact conceptLoopOps_chunks hlab h
  · simp only [ht, Bool.false_eq_true, if_false] at h
    refine ⟨[], ?_, by simp⟩
    simpa [pure_ok] using h.symm

theorem approachPhaseOps_chunks {item qid : Val} {now : Int} {ops : List Op}
    (h : approachPhaseOps item qid now = .ok ops) :
    ∃ chunks : List (List Op), ops = chunks.flatten ∧
      ∀ c ∈ chunks, ChunkShape qid now c := by
  unfold approachPhaseOps at h
  obtain ⟨approaches, _, h⟩ := except_bind_ok h
  by_cases ht : approaches.truthy
  · simp only [ht, if_true] at h
    obtain ⟨elems, _, h⟩ := except_bind_ok h
    exact approachLoopOps_chunks h
  · simp only [ht, Bool.false_eq_true, if_false] at h
    refine ⟨[], ?_, by simp⟩
    simpa [pure_ok] using h.symm

theorem questionNodeOp_shape {item : Val} {now : Int} {qOp : Op}
    (h : questionNodeOp item now = .ok qOp) :
    ∃ qid t q d s ss sq, item.sub "id" = .ok qid ∧
      item.sub "question_title" = .ok t ∧ item.sub "question" = .ok q ∧
      item.sub "difficulty" = .ok d ∧ item.sub "step_no" = .ok s ∧
      item.sub "sub_step_no" = .ok ss ∧ item.sub "sl_no" = .ok sq ∧
      qOp = Op.node "Question" "id" qid (NodeUpd.qUpd t q d s ss sq now) := by
  unfold questionNodeOp at h
  obtain ⟨qid, hqid, h⟩ := except_bind_ok h
  obtain ⟨t, ht, h⟩ := except_bind_ok h
  obtain ⟨q, hq, h⟩ := except_bind_ok h
  obtain ⟨d, hd, h⟩ := except_bind_ok h
  obtain ⟨sV, hs, h⟩ := except_bind_ok h
  obtain ⟨ssV, hss, h⟩ := except_bind_ok h
  obtain ⟨sqV, hsq, h⟩ := except_bind_ok h
  exact ⟨qid, t, q, d, sV, ssV, sqV, hqid, ht, hq, hd, hs, hss, hsq,
    by simpa [pure_ok] using h.symm⟩

theorem compileItem_shape {item : Val} {now : Int} {ops : List Op}
    (h : compileItem item now = .ok ops) :
    ∃ qid t q d s ss sq, ∃ chunks : List (List Op),
      item.sub "id" = .ok qid ∧
      item.sub "question_title" = .ok t ∧ item.sub "question" = .ok q ∧
      item.sub "difficulty" = .ok d ∧ item.sub "step_no" = .ok s ∧
      item.sub "sub_step_no" = .ok ss ∧ item.sub "sl_no" = .ok sq ∧
      ops = Op.node "Question" "id" qid (NodeUpd.qUpd t q d s ss sq now)
        :: chunks.flatten ∧
      ∀ c ∈ chunks, ChunkShape qid now c := by
  unfold compileItem at h
  obtain ⟨_, _, h⟩ := except_bind_ok h
  obtain ⟨qOp, hq, h⟩ := except_bind_ok h
  obtain ⟨qid0, hqid0, h⟩ := except_bind_ok h
  obtain ⟨cOps, hc, h⟩ := except_bind_ok h
  obtain ⟨scOps, hsc, h⟩ := except_bind_ok h
  obtain ⟨saOps, hsa, h⟩ := except_bind_ok h
  have hops : ops = qOp :: (cOps ++ scOps ++ saOps) := by simpa [pure_ok] using h.symm
  obtain ⟨qid, t, q, d, sV, ssV, sqV, hqid, ht, hq2, hd2, hs2, hss2, hsq2, rfl⟩ :=
    questionNodeOp_shape hq
  have hqq : qid0 = qid := by
    rw [hqid] at hqid0
    simpa using hqid0.symm
  subst hqq
  obtain ⟨ch1, hj1, hcs1⟩ := conceptPhaseOps_chunks (Or.inl rfl) hc
  obtain ⟨ch2, hj2, hcs2⟩ := conceptPhaseOps_chunks (Or.inr rfl) hsc
  obtain ⟨ch3, hj3, hcs3⟩ := approachPhaseOps_chunks hsa
  refine ⟨qid0, t, q, d, sV, ssV, sqV, ch1 ++ ch2 ++ ch3, hqid, ht, hq2, hd2,
    hs2, hss2, hsq2, ?_, ?_⟩
  · rw [hops, hj1, hj2, hj3]
    simp
  · intro c hc2
    rcases List.mem_append.mp hc2 with hc3 | hc3
    · rcases List.mem_append.mp hc3 with hc4 | hc4
      · exact hcs1 c hc4
      · exact hcs2 c hc4
    · exact hcs3 c hc3

theorem chunk_node_upd {qid : Val} {now : Int} {c : List Op} {L k : String}
    {v : Val} {u : NodeUpd} (hch : ChunkShape qid now c)
    (hmem : Op.node L k v u ∈ c) :
    ¬ L = "Question" ∧
    (((L = "Concept" ∨ L = "SubConcept") ∧ u = NodeUpd.cUpd now) ∨
     (L = "SolutionApproach" ∧ ∃ e, u = NodeUpd.saUpd e now)) := by
  rcases hch with rfl | ⟨L2, et, s, u2, hl2, hfam, rfl⟩
  · simp at hmem
  · rcases List.mem_cons.mp hmem with heq | hmem2
    · injection heq with h1 h2 h3 h4
      subst h1
      subst h4
      exact ⟨hl2, hfam⟩
    · simp at hmem2

theorem chunks_edge_cov (qid : Val) (now : Int) :
    ∀ (chunks : List (List Op)), (∀ c ∈ chunks, ChunkShape qid now c) →
    ∀ (g1 : Graph), g1.hasNode "Question" "id" qid = true →
    ∀ l1 rt sl sk sv dl dk dv l2,
      chunks.flatten = l1 ++ (Op.edge rt sl sk sv dl dk dv) :: l2 →
      (runOps g1 l1).hasNode sl sk sv = true ∧
      (runOps g1 l1).hasNode dl dk dv = true := by
  intro chunks
  induction chunks with
  | nil =>
      intro _ g1 _ l1 rt sl sk sv dl dk dv l2 hsp
      exact absurd hsp (by cases l1 <;> simp)
  | cons c cs ih =>
      intro hch g1 hg1 l1 rt sl sk sv dl dk dv l2 hsp
      rcases hch c (by simp) with rfl | ⟨L2, et, s, u2, hl2, _, rfl⟩
      · exact ih (fun c2 hc2 => hch c2 (by simp [hc2])) g1 hg1 l1 _ _ _ _ _ _ _ l2
          (by simpa using hsp)
      · simp only [List.flatten_cons, List.cons_append, List.nil_append] at hsp
        cases l1 with
        | nil =>
            rw [List.nil_append] at hsp
            injection hsp with h1 _
            exact absurd h1 (by simp)
        | cons a l1p =>
            rw [List.cons_append] at hsp
            injection hsp with h1 hsp2
            subst h1
            cases l1p with
            | nil =>
                rw [List.nil_append] at hsp2
                injection hsp2 with h2 _
                injection h2 with e1 e2 e3 e4 e5 e6 e7
                subst e1
                subst e2
                subst e3
                subst e4
                subst e5
                subst e6
                subst e7
                constructor
                · show (applyOp g1 (Op.node L2 "name" (Val.str s) u2)).hasNode
                    "Question" "id" qid = true
                  exact hasNode_applyOp_mono _ (Or.inl rfl) hg1
                · show (applyOp g1 (Op.node L2 "name" (Val.str s) u2)).hasNode
                    L2 "name" (Val.str s) = true
                  exact hasNode_mergeNode_self
                    (fun p => u2.apply_preserves_key p "name" (Or.inr rfl))
            | cons b l1pp =>
                rw [List.cons_append] at hsp2
                injection hsp2 with h2 hsp3
                subst h2
                have hg2 : (runOps g1 [Op.node L2 "name" (Val.str s) u2,
                    Op.edge et "Question" "id" qid L2 "name" (Val.str s)]).hasNode
                    "Question" "id" qid = true :=
                  hasNode_runOps_mono _ (Or.inl rfl) hg1
                have := ih (fun c2 hc2 => hch c2 (by simp [hc2])) _ hg2 l1pp
                  rt sl sk sv dl dk dv l2 hsp3
                exact this

theorem runOps_compiled_idem {item : Val} {now : Int} {g : Graph}
    {ops : List Op} (h : compileItem item now = .ok ops) :
    runOps (runOps g ops) ops = runOps g ops := by
  obtain ⟨qid, t, q, d, sV, ssV, sqV, chunks, _, _, _, _, _, _, _, rfl, hcs⟩ :=
    compileItem_shape h
  apply secondRun_noop
  apply build_SecondRunNoop
  · intro o ho
    rcases List.mem_cons.mp ho with rfl | ho2
    · show "id" = labelKey "Question"
      simp [labelKey]
    · obtain ⟨c, hc, hoc⟩ := List.mem_flatten.mp ho2
      rcases hcs c hc with rfl | ⟨L2, et, s2, u2, hl2, _, rfl⟩
      · simp at hoc
      · rcases List.mem_cons.mp hoc with rfl | hoc2
        · show "name" = labelKey L2
          simp [labelKey, hl2]
        · have ho3 : o = Op.edge et "Question" "id" qid L2 "name" (Val.str s2) := by
            simpa using hoc2
          subst ho3
          exact ⟨by simp [labelKey], by simp [labelKey, hl2]⟩
  · intro L k v u u2 h1 h2 p
    have fam : ∀ u3 : NodeUpd,
        Op.node L k v u3 ∈
          Op.node "Question" "id" qid (NodeUpd.qUpd t q d sV ssV sqV now)
            :: chunks.flatten →
        (L = "Question" ∧ u3 = NodeUpd.qUpd t q d sV ssV sqV now) ∨
        (¬ L = "Question" ∧
          (((L = "Concept" ∨ L = "SubConcept") ∧ u3 = NodeUpd.cUpd now) ∨
           (L = "SolutionApproach" ∧ ∃ e, u3 = NodeUpd.saUpd e now))) := by
      intro u3 h3
      rcases List.mem_cons.mp h3 with heq | h4
      · injection heq with e1 e2 e3 e4
        exact Or.inl ⟨e1, e4⟩
      · obtain ⟨c, hc, hoc⟩ := List.mem_flatten.mp h4
        exact Or.inr (chunk_node_upd (hcs c hc) hoc)
    rcases fam u h1 with ⟨hL1, hu⟩ | ⟨hL1, hf1⟩
    · rcases fam u2 h2 with ⟨_, hu2⟩ | ⟨hL2, _⟩
      · subst hu
        subst hu2
        exact NodeUpd.qUpd_absorb t q d sV ssV sqV t q d sV ssV sqV now now p
      · exact absurd hL1 hL2
    · rcases fam u2 h2 with ⟨hL2, _⟩ | ⟨_, hf2⟩
      · exact absurd hL2 hL1
      · rcases hf1 with ⟨hc1, hu⟩ | ⟨hsa1, e1, hu⟩
        · rcases hf2 with ⟨_, hu2⟩ | ⟨hsa2, _⟩
          · subst hu
            subst hu2
            exact NodeUpd.cUpd_absorb now p
          · rcases hc1 with rfl | rfl <;> simp at hsa2
        · rcases hf2 with ⟨hc2, _⟩ | ⟨_, e2, hu2⟩
          · rcases hc2 with rfl | rfl <;> simp at hsa1
          · subst hu
            subst hu2
            exact NodeUpd.saUpd_absorb e1 e2 now p
  · intro l1 rt sl sk sv dl dk dv l2 hsplit
    cases l1 with
    | nil =>
        rw [List.nil_append] at hsplit
        injection hsplit with h1 _
        exact absurd h1 (by simp)
    | cons a l1p =>
        rw [List.cons_append] at hsplit
        injection hsplit with h1 hflat
        subst h1
        have hg1 : (applyOp g (Op.node "Question" "id" qid
            (NodeUpd.qUpd t q d sV ssV sqV now))).hasNode "Question" "id" qid
            = true :=
          hasNode_mergeNode_self
            (fun p2 => NodeUpd.apply_preserves_key _ p2 "id" (Or.inl rfl))
        exact chunks_edge_cov qid now chunks hcs _ hg1 l1p rt sl sk sv dl dk dv
          l2 hflat

theorem populateTx_idem {g : Graph} {item : Val} {now : Int} {g1 : Graph}
    (h : populateTx g item now = .ok g1) :
    populateTx g1 item now = .ok g1 := by
  unfold populateTx at h ⊢
  cases hc : compileItem item now with
  | error e =>
      rw [hc] at h
      exact absurd h (by simp [Except.map])
  | ok ops =>
      rw [hc] at h
      have hg1 : runOps g ops = g1 := by simpa [Except.map] using h
      have h2 : runOps g1 ops = g1 := by
        rw [← hg1]
        exact runOps_compiled_idem hc
      simpa [Except.map] using h2

/-! ## Lemmas about the ingestion pipeline -/

theorem runAll_cons (runTx : Graph → Val → Except Err Graph) (g : Graph)
    (item : Val) (rest : List Val) :
    runAll runTx g (item :: rest) =
      runAll runTx (match runTx g item with | .ok g1 => g1 | .error _ => g) rest := rfl

theorem idOrNA_obj (kvs : List (String × Val)) :
    idOrNA (Val.obj kvs) = .ok (idOrNAD (Val.obj kvs)) := rfl

/-- `_process_batch` under fault injection: a failing item is recorded by id
and skipped, every other item is processed, and the counters record exactly
the split. -/
theorem processBatch_inject (runTx : Graph → Val → Except Err Graph)
    (fails : Val → Bool) (g : Graph) (batch : List Val)
    (hok : ∀ item ∈ batch, fails item = false →
      ∀ h : Graph, ∃ h2, runTx h item = .ok h2)
    (hobj : ∀ item ∈ batch, fails item = true → ∃ kvs, item = Val.obj kvs) :
    processBatch (injectFaults fails runTx) g batch =
      .ok (runAll runTx g (batch.filter (fun i => !(fails i))),
           ⟨(batch.filter (fun i => !(fails i))).length,
            (batch.filter fails).length,
            (batch.filter fails).map idOrNAD⟩) := by
  induction batch generalizing g with
  | nil => rfl
  | cons item rest ih =>
    have hokr : ∀ i ∈ rest, fails i = false → ∀ h : Graph, ∃ h2, runTx h i = .ok h2 :=
      fun i hi => hok i (List.mem_cons_of_mem _ hi)
    have hobjr : ∀ i ∈ rest, fails i = true → ∃ kvs, i = Val.obj kvs :=
      fun i hi => hobj i (List.mem_cons_of_mem _ hi)
    by_cases hf : fails item = true
    · obtain ⟨kvs, hkvs⟩ := hobj item (List.mem_cons_self item rest) hf
      subst hkvs
      have h1 : injectFaults fails runTx g (Val.obj kvs) =
          .error (.typeErr "store constraint conflict") := by
        simp [injectFaults, hf]
      simp only [processBatch, h1]
      rw [ih g hokr hobjr]
      simp [idOrNA, Val.getAttr, Bind.bind, Except.bind, pure, Except.pure,
        List.filter_cons, hf, idOrNAD]
    · have hf' : fails item = false := by simpa using hf
      obtain ⟨g2, hg2⟩ := hok item (List.mem_cons_self item rest) hf' g
      have h1 : injectFaults fails runTx g item = .ok g2 := by
        simp [injectFaults, hf', hg2]
      simp only [processBatch, h1]
      rw [ih g2 hokr hobjr]
      simp [Bind.bind, Except.bind, pure, Except.pure, List.filter_cons, hf',
        hf, runAll_cons, hg2]

theorem processBatch_counts (runTx : Graph → Val → Except Err Graph)
    (batch : List Val) :
    ∀ g gf st, processBatch runTx g batch = .ok (gf, st) →
      st.processed + st.failed = batch.length ∧
      st.failed_ids.length = st.failed := by
  induction batch with
  | nil =>
    intro g gf st h
    simp only [processBatch, Except.ok.injEq, Prod.mk.injEq] at h
    obtain ⟨-, rfl⟩ := h
    simp
  | cons item rest ih =>
    intro g gf st h
    simp only [processBatch] at h
    split at h
    · obtain ⟨⟨gf2, st2⟩, h1, h2⟩ := except_bind_ok h
      obtain ⟨hpf, hlen⟩ := ih _ gf2 st2 h1
      simp only [pure_ok, Except.ok.injEq, Prod.mk.injEq] at h2
      obtain ⟨rfl, rfl⟩ := h2
      simp only [List.length_cons]
      omega
    · obtain ⟨iid, hi, h⟩ := except_bind_ok h
      obtain ⟨⟨gf2, st2⟩, h1, h2⟩ := except_bind_ok h
      obtain ⟨hpf, hlen⟩ := ih _ gf2 st2 h1
      simp only [pure_ok, Except.ok.injEq, Prod.mk.injEq] at h2
      obtain ⟨rfl, rfl⟩ := h2
      simp only [List.length_cons]
      omega

theorem validateDataItems_counts (data : List Val) :
    ∀ vs, validateDataItems data = .ok vs →
      vs.valid_items.length + vs.invalid_items.length = data.length ∧
      vs.invalid_item_ids.length = vs.invalid_items.length := by
  induction data with
  | nil =>
    intro vs h
    simp only [validateDataItems, Except.ok.injEq] at h
    subst h
    simp
  | cons item rest ih =>
    intro vs h
    simp only [validateDataItems] at h
    split at h
    · obtain ⟨r, h1, h2⟩ := except_bind_ok h
      obtain ⟨hc, hlen⟩ := ih r h1
      simp only [pure_ok, Except.ok.injEq] at h2
      subst h2
      simp only [List.length_cons]
      omega
    · obtain ⟨iid, hi, h⟩ := except_bind_ok h
      obtain ⟨r, h1, h2⟩ := except_bind_ok h
      obtain ⟨hc, hlen⟩ := ih r h1
      simp only [pure_ok, Except.ok.injEq] at h2
      subst h2
      simp only [List.length_cons]
      omega
    · exact absurd h (by simp)

theorem processValidBatches_counts (runTx : Graph → Val → Except Err Graph)
    (batches : List (List Val)) :
    ∀ g gf st, processValidBatches runTx g batches = .ok (gf, st) →
      st.processed + st.failed = batches.flatten.length ∧
      st.failed_ids.length = st.failed := by
  induction batches with
  | nil =>
    intro g gf st h
    simp only [processValidBatches, Except.ok.injEq, Prod.mk.injEq] at h
    obtain ⟨-, rfl⟩ := h
    simp
  | cons b bs ih =>
    intro g gf st h
    simp only [processValidBatches] at h
    obtain ⟨⟨g1, st1⟩, h1, h⟩ := except_bind_ok h
    obtain ⟨⟨gf2, st2⟩, h2, h3⟩ := except_bind_ok h
    obtain ⟨hb1, hb2⟩ := processBatch_counts runTx b g g1 st1 h1
    obtain ⟨hc1, hc2⟩ := ih g1 gf2 st2 h2
    simp only [pure_ok, Except.ok.injEq, Prod.mk.injEq] at h3
    obtain ⟨rfl, rfl⟩ := h3
    simp only [List.flatten_cons, List.length_append, List.length_append]
    omega

theorem chunksOfFuel_flatten (bs : Nat) : ∀ (fuel : Nat) (l : List Val),
    l.length ≤ fuel → (chunksOfFuel bs fuel l).flatten = l
  | 0, [], _ => rfl
  | 0, x :: xs, h => by simp at h
  | fuel + 1, [], _ => rfl
  | fuel + 1, x :: xs, h => by
      simp only [chunksOfFuel, List.flatten_cons]
      rw [chunksOfFuel_flatten bs fuel (xs.drop bs)
        (by simp only [List.length_drop]; simp at h; omega)]
      simp [List.take_append_drop]

theorem chunksOf_flatten (bs : Nat) (l : List Val) :
    (chunksOf bs l).flatten = l :=
  chunksOfFuel_flatten bs l.length l le_rfl

theorem processDataInBatches_identity (runTx : Graph → Val → Except Err Graph)
    (g : Graph) (data : List Val) (batchSize : Nat) (gf : Graph) (st : Stats)
    (h : processDataInBatches runTx g data batchSize = .ok (gf, st)) :
    st.total_items = st.processed_items + st.failed_items + st.invalid_items ∧
    st.failed_item_ids.length = st.failed_items ∧
    st.invalid_item_ids.length = st.invalid_items := by
  unfold processDataInBatches at h
  obtain ⟨split, hsp, h⟩ := except_bind_ok h
  obtain ⟨hv1, hv2⟩ := validateDataItems_counts data split hsp
  split at h
  · exact absurd h (by simp)
  · obtain ⟨⟨gf2, agg⟩, h1, h2⟩ := except_bind_ok h
    obtain ⟨hc1, hc2⟩ := processValidBatches_counts runTx _ g gf2 agg h1
    rw [chunksOf_flatten] at hc1
    simp only [pure_ok, Except.ok.injEq, Prod.mk.injEq] at h2
    obtain ⟨rfl, rfl⟩ := h2
    simp only
    omega

/-! ## Validation as a pure presence test (C7 support) -/

theorem missingFields_obj (kvs : List (String × Val)) :
    ∀ fs : List String, missingFields (Val.obj kvs) fs =
      .ok (fs.filter (fun f => !(kvs.any (fun kv => kv.1 == f))))
  | [] => rfl
  | f :: fs => by
      simp only [missingFields, Val.hasKey, Bind.bind, Except.bind]
      rw [missingFields_obj kvs fs]
      by_cases h : kvs.any (fun kv => kv.1 == f) = true
      · simp [List.filter_cons, h, pure, Except.pure]
      · simp only [Bool.not_eq_true] at h
        simp [List.filter_cons, h, pure, Except.pure]

/-! ## Question-node attributes after an upsert (C4 and C6 support) -/

theorem getProp_setProp_cases (p : Props) (k k' : String) (v : Val) :
    getProp (setProp p k v) k' = if k = k' then v else getProp p k' := by
  by_cases h : k = k'
  · subst h
    simp [getProp_setProp_self]
  · simp [h, getProp_setProp_ne p v h]

theorem NodeUpd.qUpd_getProps (t q d s ss sq : Val) (now : Int) (p : Props) :
    getProp ((NodeUpd.qUpd t q d s ss sq now).apply p) "question_title" = t ∧
    getProp ((NodeUpd.qUpd t q d s ss sq now).apply p) "question" = q ∧
    getProp ((NodeUpd.qUpd t q d s ss sq now).apply p) "difficulty" = d ∧
    getProp ((NodeUpd.qUpd t q d s ss sq now).apply p) "step_number" = s ∧
    getProp ((NodeUpd.qUpd t q d s ss sq now).apply p) "sub_step_number" = ss ∧
    getProp ((NodeUpd.qUpd t q d s ss sq now).apply p) "sequence_number" = sq ∧
    getProp ((NodeUpd.qUpd t q d s ss sq now).apply p) "created_at" = Val.int now ∧
    getProp ((NodeUpd.qUpd t q d s ss sq now).apply p) "updated_at" = Val.int now := by
  simp [NodeUpd.apply, getProp_setProp_cases]

theorem chunk_ops_good {qid : Val} {now : Int} {c : List Op}
    (hc : ChunkShape qid now c) :
    ∀ o ∈ c, GoodOp o ∧ ∀ w, ¬ Op.sel o = Sel.node "Question" "id" w := by
  rcases hc with rfl | ⟨L, et, s, u, hnq, hu, rfl⟩
  · simp
  · intro o ho
    rcases List.mem_cons.mp ho with rfl | ho2
    · refine ⟨?_, ?_⟩
      · show "name" = labelKey L
        simp [labelKey, hnq]
      · intro w hcon
        simp only [Op.sel] at hcon
        injection hcon with h1 h2 h3
        exact hnq h1
    · rcases List.mem_cons.mp ho2 with rfl | ho3
      · refine ⟨⟨rfl, ?_⟩, ?_⟩
        · show "name" = labelKey L
          simp [labelKey, hnq]
        · intro w hcon
          simp [Op.sel] at hcon
      · simp at ho3

theorem chunks_ops_good {qid : Val} {now : Int} {chunks : List (List Op)}
    (hcs : ∀ c ∈ chunks, ChunkShape qid now c) :
    ∀ o ∈ chunks.flatten, GoodOp o ∧ ∀ w, ¬ Op.sel o = Sel.node "Question" "id" w := by
  intro o ho
  obtain ⟨c, hcmem, homem⟩ := List.mem_flatten.mp ho
  exact chunk_ops_good (hcs c hcmem) o homem

theorem questionNode_overwrite {g : Graph} {item : Val} {now : Int} {g2 : Graph}
    {idv tv qv dv sv ssv sqv : Val}
    (hidv : item.sub "id" = .ok idv)
    (htv : item.sub "question_title" = .ok tv)
    (hqv : item.sub "question" = .ok qv)
    (hdv : item.sub "difficulty" = .ok dv)
    (hsv : item.sub "step_no" = .ok sv)
    (hssv : item.sub "sub_step_no" = .ok ssv)
    (hsqv : item.sub "sl_no" = .ok sqv)
    (h : populateTx g item now = .ok g2) :
    (∃ n ∈ g2.nodes, nodeMatches "Question" "id" idv n = true) ∧
    (∀ n ∈ g2.nodes, nodeMatches "Question" "id" idv n = true →
      getProp n.props "question_title" = tv ∧
      getProp n.props "question" = qv ∧
      getProp n.props "difficulty" = dv ∧
      getProp n.props "step_number" = sv ∧
      getProp n.props "sub_step_number" = ssv ∧
      getProp n.props "sequence_number" = sqv ∧
      getProp n.props "created_at" = Val.int now ∧
      getProp n.props "updated_at" = Val.int now) := by
  unfold populateTx at h
  cases hc : compileItem item now with
  | error e =>
      rw [hc] at h
      exact absurd h (by simp [Except.map])
  | ok ops =>
      rw [hc] at h
      have hg : runOps g ops = g2 := by simpa [Except.map] using h
      subst hg
      obtain ⟨qid, t2, q2, d2, s2, ss2, sq2, chunks, hqid, ht2, hq2, hd2, hs2,
        hss2, hsq2, rfl, hcs⟩ := compileItem_shape hc
      rw [hidv] at hqid; injection hqid with hqid
      rw [htv] at ht2; injection ht2 with ht2
      rw [hqv] at hq2; injection hq2 with hq2
      rw [hdv] at hd2; injection hd2 with hd2
      rw [hsv] at hs2; injection hs2 with hs2
      rw [hssv] at hss2; injection hss2 with hss2
      rw [hsqv] at hsq2; injection hsq2 with hsq2
      subst hqid ht2 hq2 hd2 hs2 hss2 hsq2
      rw [runOps_cons]
      have hM : MatchProp "Question" "id" idv
          (fun p => getProp p "question_title" = tv ∧ getProp p "question" = qv ∧
            getProp p "difficulty" = dv ∧ getProp p "step_number" = sv ∧
            getProp p "sub_step_number" = ssv ∧ getProp p "sequence_number" = sqv ∧
            getProp p "created_at" = Val.int now ∧
            getProp p "updated_at" = Val.int now)
          (applyOp g (Op.node "Question" "id" idv
            (NodeUpd.qUpd tv qv dv sv ssv sqv now))) := by
        show MatchProp _ _ _ _ (g.mergeNode "Question" "id" idv
          (NodeUpd.qUpd tv qv dv sv ssv sqv now).apply)
        exact mergeNode_MatchProp
          (fun p => NodeUpd.apply_preserves_key _ p "id" (Or.inl rfl))
          (fun p => NodeUpd.qUpd_getProps tv qv dv sv ssv sqv now p)
      exact MatchProp_runOps (by simp [labelKey]) chunks.flatten
        (fun o ho => ⟨(chunks_ops_good hcs o ho).1, (chunks_ops_good hcs o ho).2 idv⟩)
        hM

theorem mergeNode_MatchProp_new {g : Graph} {L k : String} {v : Val}
    {upd : Props → Props} {P : Props → Prop}
    (hm : g.hasNode L k v = false)
    (hkp : getProp (upd [(k, v)]) k = getProp [(k, v)] k)
    (hP : P (upd [(k, v)])) :
    MatchProp L k v P (g.mergeNode L k v upd) := by
  have hm' : ¬ g.hasNode L k v := by simp [hm]
  constructor
  · refine ⟨{ label := L, props := upd [(k, v)] }, ?_, ?_⟩
    · rw [mergeNode_nodes_of_not (by simpa using hm')]
      simp
    · unfold nodeMatches
      simp [hkp, getProp_single]
  · intro m hmem hmatch
    rw [mergeNode_nodes_of_not (by simpa using hm')] at hmem
    rcases List.mem_append.mp hmem with hold | hnew
    · exact absurd (List.any_eq_true.mpr ⟨m, hold, hmatch⟩) hm'
    · simp at hnew
      subst hnew
      exact hP

theorem findQuestionById_after_upsert {g : Graph} {item : Val} {now : Int}
    {g2 : Graph} {qid : String}
    (hq0 : g.hasNode "Question" "id" (.str qid) = false)
    (hid : item.sub "id" = .ok (.str qid))
    (h : populateTx g item now = .ok g2) :
    (findQuestionById g2 qid).map (Option.map QuestionM.solution_approaches)
      = .ok (some []) := by
  unfold populateTx at h
  cases hc : compileItem item now with
  | error e =>
      rw [hc] at h
      exact absurd h (by simp [Except.map])
  | ok ops =>
      rw [hc] at h
      have hg : runOps g ops = g2 := by simpa [Except.map] using h
      subst hg
      obtain ⟨qid2, t2, q2, d2, s2, ss2, sq2, chunks, hqid, _, _, _, _, _, _,
        rfl, hcs⟩ := compileItem_shape hc
      rw [hid] at hqid; injection hqid with hqid
      subst hqid
      rw [runOps_cons]
      have hM : MatchProp "Question" "id" (.str qid)
          (fun p => getProp p "solution_approaches" = Val.null)
          (applyOp g (Op.node "Question" "id" (.str qid)
            (NodeUpd.qUpd t2 q2 d2 s2 ss2 sq2 now))) := by
        show MatchProp _ _ _ _ (g.mergeNode "Question" "id" (.str qid)
          (NodeUpd.qUpd t2 q2 d2 s2 ss2 sq2 now).apply)
        apply mergeNode_MatchProp_new hq0
          (NodeUpd.apply_preserves_key _ _ "id" (Or.inl rfl))
        rw [NodeUpd.getProp_apply_notin _ _ _
          (by simp only [NodeUpd.keyList]; decide)]
        simp [getProp]
      have hMf := MatchProp_runOps (by simp [labelKey]) chunks.flatten
        (fun o ho => ⟨(chunks_ops_good hcs o ho).1,
          (chunks_ops_good hcs o ho).2 (.str qid)⟩) hM
      obtain ⟨⟨n0, hn0, hm0⟩, hall⟩ := hMf
      unfold findQuestionById
      cases hfl : (runOps (applyOp g (Op.node "Question" "id" (Val.str qid)
          (NodeUpd.qUpd t2 q2 d2 s2 ss2 sq2 now))) chunks.flatten).nodes.filter
          (fun n => n.label == "Question" && getProp n.props "id" == Val.str qid) with
      | nil =>
          exfalso
          have hmem : n0 ∈ (runOps (applyOp g (Op.node "Question" "id" (Val.str qid)
              (NodeUpd.qUpd t2 q2 d2 s2 ss2 sq2 now))) chunks.flatten).nodes.filter
              (fun n => n.label == "Question" && getProp n.props "id" == Val.str qid) :=
            List.mem_filter.mpr ⟨hn0, hm0⟩
          rw [hfl] at hmem
          simp at hmem
      | cons d0 rest =>
          have hd0 : d0 ∈ (runOps (applyOp g (Op.node "Question" "id" (Val.str qid)
              (NodeUpd.qUpd t2 q2 d2 s2 ss2 sq2 now))) chunks.flatten).nodes.filter
              (fun n => n.label == "Question" && getProp n.props "id" == Val.str qid) := by
            rw [hfl]
            simp
          have hnull : getProp d0.props "solution_approaches" = Val.null :=
            hall d0 (List.mem_filter.mp hd0).1 (List.mem_filter.mp hd0).2
          simp only [List.map_cons]
          have hproj : (projectQuestionRow d0).solution_approaches = Val.null := hnull
          simp [buildQuestionFromData, hproj, Val.truthy, Except.map,
            Bind.bind, Except.bind, pure, Except.pure]

/-! ## Lemmas about the ordered unmastered-question query (C8 support) -/

theorem mem_insertSorted (le : Row → Row → Bool) (x y : Row) :
    ∀ l : List Row, y ∈ insertSorted le x l ↔ y = x ∨ y ∈ l
  | [] => by simp [insertSorted]
  | z :: zs => by
      unfold insertSorted
      by_cases h : le x z
      · simp [h]
      · simp only [h, Bool.false_eq_true, if_false, List.mem_cons,
          mem_insertSorted le x y zs]
        tauto

theorem mem_sortRows (le : Row → Row → Bool) (y : Row) :
    ∀ l : List Row, y ∈ sortRows le l ↔ y ∈ l
  | [] => by simp [sortRows]
  | x :: xs => by
      simp [sortRows, mem_insertSorted, mem_sortRows le y xs]

theorem length_insertSorted (le : Row → Row → Bool) (x : Row) :
    ∀ l : List Row, (insertSorted le x l).length = l.length + 1
  | [] => rfl
  | z :: zs => by
      unfold insertSorted
      by_cases h : le x z
      · simp [h]
      · simp [h, length_insertSorted le x zs]

theorem length_sortRows (le : Row → Row → Bool) :
    ∀ l : List Row, (sortRows le l).length = l.length
  | [] => rfl
  | x :: xs => by simp [sortRows, length_insertSorted, length_sortRows le xs]

theorem insertSorted_chain (le : Row → Row → Bool)
    (htot : ∀ a b, le a b = true ∨ le b a = true) (x : Row) :
    ∀ l : List Row, l.Chain' (fun a b => le a b = true) →
      (insertSorted le x l).Chain' (fun a b => le a b = true)
  | [], _ => by simp [insertSorted]
  | z :: zs, h => by
      unfold insertSorted
      by_cases hxz : le x z
      · rw [if_pos hxz]
        exact List.chain'_cons.mpr ⟨hxz, h⟩
      · rw [if_neg hxz]
        have hzx : le z x = true := (htot x z).resolve_left hxz
        have hins := insertSorted_chain le htot x zs h.tail
        refine List.chain'_cons'.mpr ⟨?_, hins⟩
        intro w hw
        cases zs with
        | nil =>
            simp [insertSorted] at hw
            subst hw
            exact hzx
        | cons z2 zs2 =>
            rw [show insertSorted le x (z2 :: zs2) =
              if le x z2 then x :: z2 :: zs2 else z2 :: insertSorted le x zs2
              from rfl] at hw
            by_cases h2 : le x z2
            · rw [if_pos h2] at hw
              simp at hw
              subst hw
              exact hzx
            · rw [if_neg h2] at hw
              simp at hw
              subst hw
              exact (List.chain'_cons.mp h).1

theorem sortRows_chain (le : Row → Row → Bool)
    (htot : ∀ a b, le a b = true ∨ le b a = true) :
    ∀ l : List Row, (sortRows le l).Chain' (fun a b => le a b = true)
  | [] => List.chain'_nil
  | x :: xs => insertSorted_chain le htot x _ (sortRows_chain le htot xs)

theorem chain'_pairwise_of_trans {α : Type} {R : α → α → Prop} :
    ∀ l : List α, (∀ a ∈ l, ∀ b ∈ l, ∀ c ∈ l, R a b → R b c → R a c) →
      l.Chain' R → l.Pairwise R
  | [], _, _ => List.Pairwise.nil
  | x :: l, htr, h => by
      have hpl : l.Pairwise R :=
        chain'_pairwise_of_trans l
          (fun a ha b hb c hc => htr a (List.mem_cons_of_mem _ ha)
            b (List.mem_cons_of_mem _ hb) c (List.mem_cons_of_mem _ hc)) h.tail
      refine List.pairwise_cons.mpr ⟨?_, hpl⟩
      intro y hy
      cases l with
      | nil => simp at hy
      | cons z zs =>
          have hxz : R x z := (List.chain'_cons.mp h).1
          rcases List.mem_cons.mp hy with rfl | hy2
          · exact hxz
          · have hzy : R z y := (List.pairwise_cons.mp hpl).1 y hy2
            exact htr x (List.mem_cons_self _ _) z
              (List.mem_cons_of_mem _ (List.mem_cons_self _ _))
              y (List.mem_cons_of_mem _ (List.mem_cons_of_mem _ hy2)) hxz hzy

theorem keyLE_total (a b : Val) : a.keyLE b = true ∨ b.keyLE a = true := by
  cases a <;> cases b <;>
    simp only [Val.keyLE, valRank, decide_eq_true_eq] <;>
    first
      | omega
      | exact le_total _ _
      | (rename_i x y; cases x <;> cases y <;> simp)
      | simp

theorem rowKeyLE_total (a b : Row) : rowKeyLE a b = true ∨ rowKeyLE b a = true := by
  unfold rowKeyLE
  by_cases h1 : a.step_number = b.step_number
  · rw [if_pos h1, if_pos h1.symm]
    by_cases h2 : a.sub_step_number = b.sub_step_number
    · rw [if_pos h2, if_pos h2.symm]
      exact keyLE_total _ _
    · rw [if_neg h2, if_neg (fun hc => h2 hc.symm)]
      exact keyLE_total _ _
  · rw [if_neg h1, if_neg (fun hc => h1 hc.symm)]
    exact keyLE_total _ _

/-- Rows whose three ordering keys are store integers (the shape every
curriculum item produces). -/
def IntKeys (r : Row) : Prop :=
  (∃ n, r.step_number = Val.int n) ∧ (∃ n, r.sub_step_number = Val.int n) ∧
  (∃ n, r.sequence_number = Val.int n)

theorem rowKeyLE_trans {a b c : Row} (ha : IntKeys a) (hb : IntKeys b)
    (hc : IntKeys c) (h1 : rowKeyLE a b = true) (h2 : rowKeyLE b c = true) :
    rowKeyLE a c = true := by
  obtain ⟨⟨a1, ha1⟩, ⟨a2, ha2⟩, ⟨a3, ha3⟩⟩ := ha
  obtain ⟨⟨b1, hb1⟩, ⟨b2, hb2⟩, ⟨b3, hb3⟩⟩ := hb
  obtain ⟨⟨c1, hc1⟩, ⟨c2, hc2⟩, ⟨c3, hc3⟩⟩ := hc
  unfold rowKeyLE at h1 h2 ⊢
  rw [ha1, ha2, ha3, hb1, hb2, hb3] at h1
  rw [hb1, hb2, hb3, hc1, hc2, hc3] at h2
  rw [ha1, ha2, ha3, hc1, hc2, hc3]
  simp only [Val.keyLE, Val.int.injEq, decide_eq_true_eq] at h1 h2 ⊢
  split_ifs at h1 h2 ⊢ <;>
    (try simp only [decide_eq_true_eq] at h1) <;>
    (try simp only [decide_eq_true_eq] at h2) <;>
    (try simp only [decide_eq_true_eq]) <;>
    omega

theorem hasMasteredFrom_append_other (g : Graph) (sid : String) (e : Edge)
    (he : ¬(e.relType = "MASTERED" ∧ e.srcLabel = "Student" ∧
      e.srcKey = "student_id" ∧ e.srcVal = Val.str sid)) (n : Node) :
    hasMasteredFrom ⟨g.nodes, g.edges ++ [e]⟩ sid n = hasMasteredFrom g sid n := by
  unfold hasMasteredFrom
  have hfe : (e.relType == "MASTERED" && e.srcLabel == "Student" &&
      e.srcKey == "student_id" && e.srcVal == Val.str sid &&
      e.dstLabel == "Question" && e.dstKey == "id" &&
      e.dstVal == getProp n.props "id") = false := by
    by_contra hcon
    rw [Bool.not_eq_false] at hcon
    simp only [Bool.and_eq_true, beq_iff_eq] at hcon
    exact he ⟨hcon.1.1.1.1.1.1, hcon.1.1.1.1.1.2, hcon.1.1.1.1.2, hcon.1.1.1.2⟩
  show (Graph.hasNode ⟨g.nodes, g.edges ++ [e]⟩ "Student" "student_id" (.str sid)
      && (g.edges ++ [e]).any _) = _
  have hn : Graph.hasNode ⟨g.nodes, g.edges ++ [e]⟩ "Student" "student_id"
      (.str sid) = g.hasNode "Student" "student_id" (.str sid) := rfl
  rw [hn, List.any_append]
  simp [hfe]

theorem findUnmastered_ignores_other_edges (g : Graph) (sid : String)
    (limit : Nat) (e : Edge)
    (he : ¬(e.relType = "MASTERED" ∧ e.srcLabel = "Student" ∧
      e.srcKey = "student_id" ∧ e.srcVal = Val.str sid)) :
    findUnmasteredQuestionsForStudent ⟨g.nodes, g.edges ++ [e]⟩ sid limit =
      findUnmasteredQuestionsForStudent g sid limit := by
  unfold findUnmasteredQuestionsForStudent
  simp only [hasMasteredFrom_append_other g sid e he]

/-! ## Concrete inputs and store states for the concrete instances -/

def itemW : Val := .obj [("id", .str "q1"), ("question_title", .str "T"),
  ("question", .str "B"), ("difficulty", .str "E"),
  ("step_no", .int 1), ("sub_step_no", .int 2), ("sl_no", .int 3),
  ("sub_concepts", .arr [.str "c1", .str "c2"]),
  ("solution_approaches", .arr [.obj [("approach_name", .str "a1"),
    ("explanation", .str "e1")]])]

/-- The store state `populateTx Graph.empty itemW 7` commits. -/
def gW1 : Graph :=
  ⟨[⟨"Question", [("id", .str "q1"), ("question_title", .str "T"),
      ("question", .str "B"), ("difficulty", .str "E"),
      ("step_number", .int 1), ("sub_step_number", .int 2),
      ("sequence_number", .int 3), ("created_at", .int 7),
      ("updated_at", .int 7)]⟩,
    ⟨"Concept", [("name", .str "c1"), ("created_at", .int 7),
      ("updated_at", .int 7)]⟩,
    ⟨"Concept", [("name", .str "c2"), ("created_at", .int 7),
      ("updated_at", .int 7)]⟩,
    ⟨"SubConcept", [("name", .str "c1"), ("created_at", .int 7),
      ("updated_at", .int 7)]⟩,
    ⟨"SubConcept", [("name", .str "c2"), ("created_at", .int 7),
      ("updated_at", .int 7)]⟩,
    ⟨"SolutionApproach", [("name", .str "a1"), ("explanation", .str "e1"),
      ("created_at", .int 7), ("updated_at", .int 7)]⟩],
   [⟨"INVOLVES_CONCEPT", "Question", "id", .str "q1", "Concept", "name",
      .str "c1", []⟩,
    ⟨"INVOLVES_CONCEPT", "Question", "id", .str "q1", "Concept", "name",
      .str "c2", []⟩,
    ⟨"INVOLVES_SUBCONCEPT", "Question", "id", .str "q1", "SubConcept", "name",
      .str "c1", []⟩,
    ⟨"INVOLVES_SUBCONCEPT", "Question", "id", .str "q1", "SubConcept", "name",
      .str "c2", []⟩,
    ⟨"HAS_SOLUTION_APPROACH", "Question", "id", .str "q1", "SolutionApproach",
      "name", .str "a1", []⟩]⟩

def itemC4 : Val := .obj [("id", .str "q4"), ("question_title", .str "T"),
  ("question", .str "B"), ("difficulty", .str "E"),
  ("step_no", .int 1), ("sub_step_no", .int 1), ("sl_no", .int 1),
  ("solution_approaches", .arr [.obj [("approach_name", .str "A"),
    ("explanation", .str "E")]])]

/-- The store state `populateTx Graph.empty itemC4 0` commits. -/
def gC4 : Graph :=
  ⟨[⟨"Question", [("id", .str "q4"), ("question_title", .str "T"),
      ("question", .str "B"), ("difficulty", .str "E"),
      ("step_number", .int 1), ("sub_step_number", .int 1),
      ("sequence_number", .int 1), ("created_at", .int 0),
      ("updated_at", .int 0)]⟩,
    ⟨"SolutionApproach", [("name", .str "A"), ("explanation", .str "E"),
      ("created_at", .int 0), ("updated_at", .int 0)]⟩],
   [⟨"HAS_SOLUTION_APPROACH", "Question", "id", .str "q4", "SolutionApproach",
      "name", .str "A", []⟩]⟩

def itemC5a : Val := .obj [("id", .str "q5"), ("question_title", .str "T"),
  ("question", .str "B"), ("difficulty", .str "E"),
  ("step_no", .int 1), ("sub_step_no", .int 1), ("sl_no", .int 1),
  ("standard_concepts", .arr [.str "SC"])]

def itemC5b : Val := .obj [("id", .str "q5"), ("question_title", .str "T"),
  ("question", .str "B"), ("difficulty", .str "E"),
  ("step_no", .int 1), ("sub_step_no", .int 1), ("sl_no", .int 1),
  ("sub_concepts", .arr [.str "X"])]

def itemC6 : Val := .obj [("id", .str "q6"), ("question_title", .str "T6"),
  ("question", .str "B6"), ("difficulty", .str "E"),
  ("step_no", .int 1), ("sub_step_no", .int 2), ("sl_no", .int 3)]

/-- A store that already holds the Question of `itemC6`, created at time 1. -/
def gpre6 : Graph :=
  ⟨[⟨"Question", [("id", .str "q6"), ("created_at", .int 1),
      ("question_title", .str "Old")]⟩], []⟩

/-- The store state `populateTx gpre6 itemC6 5` commits. -/
def gW6 : Graph :=
  ⟨[⟨"Question", [("id", .str "q6"), ("created_at", .int 5),
      ("question_title", .str "T6"), ("question", .str "B6"),
      ("difficulty", .str "E"), ("step_number", .int 1),
      ("sub_step_number", .int 2), ("sequence_number", .int 3),
      ("updated_at", .int 5)]⟩], []⟩

def itemC7 : Val := .obj [("id", .str "q7"), ("question_title", .str "   "),
  ("question", .str "B"), ("difficulty", .str "E"),
  ("step_no", .int 1), ("sub_step_no", .int 1), ("sl_no", .int 1)]

def batchW : List Val :=
  [.obj [("id", .str "i1")], .obj [("id", .str "bad")], .obj [("id", .str "i3")]]

def failsW : Val → Bool := fun item => idOrNAD item == .str "bad"

def dataW : List Val := [itemC6, .obj [("id", .str "x")]]

/-- The report `processDataInBatches (fun g _ => .ok g) Graph.empty dataW 2`
returns. -/
def statsW : Stats := ⟨2, 1, 0, 1, [], [.str "x"]⟩

/-- A store with a Student, a Question carrying a `sub_concepts` property, and
the matching SubConcept node. -/
def c2G : Graph :=
  ⟨[⟨"Student", [("student_id", .str "s1")]⟩,
    ⟨"Question", [("id", .str "q1"), ("sub_concepts", .arr [.str "c1"])]⟩,
    ⟨"SubConcept", [("name", .str "c1")]⟩], []⟩

/-! ## The claims -/

/-- C1: in a batch where the per-item transactions of the items selected by
`fails` raise and every other item's transaction commits, `_process_batch`
records exactly the failing items' ids as failed, propagates no exception,
processes every non-failing item (before and after each failure), and counts
exactly the non-failing items as processed. -/
theorem batch_isolation (runTx : Graph → Val → Except Err Graph)
    (fails : Val → Bool) (g : Graph) (batch : List Val)
    (hok : ∀ item ∈ batch, fails item = false →
      ∀ h : Graph, ∃ h2, runTx h item = .ok h2)
    (hobj : ∀ item ∈ batch, fails item = true → ∃ kvs, item = Val.obj kvs) :
    processBatch (injectFaults fails runTx) g batch =
      .ok (runAll runTx g (batch.filter (fun i => !(fails i))),
           ⟨(batch.filter (fun i => !(fails i))).length,
            (batch.filter fails).length,
            (batch.filter fails).map idOrNAD⟩) :=
  processBatch_inject runTx fails g batch hok hobj

theorem batch_isolation_witness :
    processBatch (injectFaults failsW (fun g _ => .ok g)) Graph.empty batchW =
      .ok (runAll (fun g _ => .ok g) Graph.empty
            (batchW.filter (fun i => !(failsW i))),
           ⟨(batchW.filter (fun i => !(failsW i))).length,
            (batchW.filter failsW).length,
            (batchW.filter failsW).map idOrNAD⟩) :=
  batch_isolation (fun g _ => .ok g) failsW Graph.empty batchW
    (fun item _ _ h => ⟨h, rfl⟩)
    (by
      intro i hi _
      simp only [batchW, List.mem_cons, List.not_mem_nil, or_false] at hi
      rcases hi with rfl | rfl | rfl <;> exact ⟨_, rfl⟩)

/-- C2: the spec claims `complete_question` performs the attempt write, the
mastery write and the sub-concept propagation inside one transaction.  In the
source the closure passed to `execute_transaction` ignores its `tx` handle and
calls three repository methods that each open their own auto-commit session,
so an intermediate committed state exists in which the `ATTEMPTED` edge is
visible while the `MASTERED` edge is not, and that state differs from the
final one. -/
theorem completeQuestion_not_atomic :
    ∃ gmid ∈ completeQuestionStates c2G "s1" "q1" true 5,
      gmid.hasEdge "ATTEMPTED" "Student" "student_id" (.str "s1")
        "Question" "id" (.str "q1") = true ∧
      gmid.hasEdge "MASTERED" "Student" "student_id" (.str "s1")
        "Question" "id" (.str "q1") = false ∧
      ¬ gmid = completeQuestion c2G "s1" "q1" true 5 := by decide

/-- C3: the upsert transaction is idempotent — if upserting item `I` commits
the store state `g1`, upserting `I` again from `g1` commits `g1` unchanged:
the same nodes, the same edges, no duplicates, attributes as after the first
run. -/
theorem upsert_idempotent {g : Graph} {item : Val} {now : Int} {g1 : Graph}
    (h : populateTx g item now = .ok g1) :
    populateTx g1 item now = .ok g1 :=
  populateTx_idem h

theorem upsert_idempotent_witness :
    populateTx gW1 itemW 7 = .ok gW1 :=
  upsert_idempotent (show populateTx Graph.empty itemW 7 = .ok gW1 by decide)

/-- C4 counterexample: upserting `itemC4`, which carries the solution approach
`(A, E)`, and reading the question back yields an empty approaches list (the
approach node itself was written to the store), contradicting the claimed
round-trip of the (name, explanation) pairs. -/
theorem roundtrip_counterexample :
    (populateTx Graph.empty itemC4 0).map
        (fun g => g.hasNode "SolutionApproach" "name" (.str "A")) = .ok true ∧
    ((populateTx Graph.empty itemC4 0).bind (fun g => findQuestionById g "q4")).map
        (Option.map QuestionM.solution_approaches) = .ok (some []) := by decide

/-- C4 (amended): the upsert engine stores approaches as `SolutionApproach`
nodes, while `find_question_by_id` reads a `q.solution_approaches` node
property that the engine never writes, so reading back any freshly upserted
question reconstructs an empty approaches list, whatever was written. -/
theorem roundtrip_loses_approaches {g : Graph} {item : Val} {now : Int}
    {g2 : Graph} {qid : String}
    (hq0 : g.hasNode "Question" "id" (.str qid) = false)
    (hid : item.sub "id" = .ok (.str qid))
    (h : populateTx g item now = .ok g2) :
    (findQuestionById g2 qid).map (Option.map QuestionM.solution_approaches)
      = .ok (some []) :=
  findQuestionById_after_upsert hq0 hid h

theorem roundtrip_loses_approaches_witness :
    (findQuestionById gC4 "q4").map (Option.map QuestionM.solution_approaches)
      = .ok (some []) :=
  @roundtrip_loses_approaches Graph.empty itemC4 0 gC4 "q4"
    (by decide) (by decide) (by decide)

/-- C5: the spec says step 2 merges a Concept node (and an INVOLVES_CONCEPT
edge) for each non-blank name of the standard-concepts list.  The source's
`_create_standard_concepts` reads `item.get('sub_concepts', [])` instead:
an item whose `standard_concepts` is `["SC"]` produces no Concept node and no
edge at all, while the same item with `sub_concepts = ["X"]` produces the
Concept node `X` and its edge. -/
theorem standard_concepts_ignored :
    (populateTx Graph.empty itemC5a 0).map
        (fun g => (g.hasNode "Concept" "name" (.str "SC"), g.edges.length))
      = .ok (false, 0) ∧
    (populateTx Graph.empty itemC5b 0).map
        (fun g => (g.hasNode "Concept" "name" (.str "X"),
          g.hasEdge "INVOLVES_CONCEPT" "Question" "id" (.str "q5")
            "Concept" "name" (.str "X")))
      = .ok (true, true) := by decide

/-- C6 counterexample: upserting `itemC6` into an empty store at time 1 sets
`created_at = 1` on the Question node; upserting the same item again at time 2
leaves the node with `created_at = 2` — the attribute does not survive a
re-upsert of an existing node. -/
theorem created_at_counterexample :
    (populateTx Graph.empty itemC6 1).map
        (fun g => g.nodes.map (fun n => getProp n.props "created_at"))
      = .ok [.int 1] ∧
    ((populateTx Graph.empty itemC6 1).bind (fun g => populateTx g itemC6 2)).map
        (fun g => g.nodes.map (fun n => getProp n.props "created_at"))
      = .ok [.int 2] := by decide

/-- C6 (amended): upserting a valid item overwrites title, body, difficulty,
the three ordering numbers and `updated_at` on every matched Question node,
and also overwrites `created_at` with the current timestamp — the `SET`
clause assigns `created_at = datetime()` unconditionally, whether or not the
node already existed. -/
theorem question_upsert_overwrites {g : Graph} {item : Val} {now : Int}
    {g2 : Graph} {idv tv qv dv sv ssv sqv : Val}
    (hidv : item.sub "id" = .ok idv)
    (htv : item.sub "question_title" = .ok tv)
    (hqv : item.sub "question" = .ok qv)
    (hdv : item.sub "difficulty" = .ok dv)
    (hsv : item.sub "step_no" = .ok sv)
    (hssv : item.sub "sub_step_no" = .ok ssv)
    (hsqv : item.sub "sl_no" = .ok sqv)
    (h : populateTx g item now = .ok g2) :
    (∃ n ∈ g2.nodes, nodeMatches "Question" "id" idv n = true) ∧
    (∀ n ∈ g2.nodes, nodeMatches "Question" "id" idv n = true →
      getProp n.props "question_title" = tv ∧
      getProp n.props "question" = qv ∧
      getProp n.props "difficulty" = dv ∧
      getProp n.props "step_number" = sv ∧
      getProp n.props "sub_step_number" = ssv ∧
      getProp n.props "sequence_number" = sqv ∧
      getProp n.props "created_at" = Val.int now ∧
      getProp n.props "updated_at" = Val.int now) :=
  questionNode_overwrite hidv htv hqv hdv hsv hssv hsqv h

theorem question_upsert_overwrites_witness :
    (∃ n ∈ gW6.nodes, nodeMatches "Question" "id" (Val.str "q6") n = true) ∧
    (∀ n ∈ gW6.nodes, nodeMatches "Question" "id" (Val.str "q6") n = true →
      getProp n.props "question_title" = Val.str "T6" ∧
      getProp n.props "question" = Val.str "B6" ∧
      getProp n.props "difficulty" = Val.str "E" ∧
      getProp n.props "step_number" = Val.int 1 ∧
      getProp n.props "sub_step_number" = Val.int 2 ∧
      getProp n.props "sequence_number" = Val.int 3 ∧
      getProp n.props "created_at" = Val.int 5 ∧
      getProp n.props "updated_at" = Val.int 5) :=
  @question_upsert_overwrites gpre6 itemC6 5 gW6 (Val.str "q6") (Val.str "T6")
    (Val.str "B6") (Val.str "E") (Val.int 1) (Val.int 2) (Val.int 3)
    (by decide) (by decide) (by decide) (by decide) (by decide) (by decide)
    (by decide) (by decide)

/-- C7 counterexample: `itemC7` carries all seven required fields but its
`question_title` is whitespace only (it strips to the empty string); batch
validation nevertheless classifies it as valid, contradicting the claimed
rejection of blank titles. -/
theorem blank_title_counterexample :
    validateDataItems [itemC7] = .ok ⟨[itemC7], [], []⟩ ∧
    (itemC7.sub "question_title").bind Val.strip = .ok "" := by decide

/-- C7 (amended): for a dict item, validation checks only the presence of the
seven required keys — it accepts exactly the items carrying all of them
(whatever the values, a whitespace-only title included) and otherwise raises
a `DataValidationError` naming exactly the missing fields. -/
theorem validation_presence_only (kvs : List (String × Val)) :
    (validateQuestionData (Val.obj kvs) = .ok () ↔
      ∀ f ∈ requiredFields, kvs.any (fun kv => kv.1 == f) = true) ∧
    (¬ validateQuestionData (Val.obj kvs) = .ok () →
      validateQuestionData (Val.obj kvs) = .error (.validation
        ("Missing required fields: " ++
          toString (requiredFields.filter
            (fun f => !(kvs.any (fun kv => kv.1 == f))))))) := by
  have hm := missingFields_obj kvs requiredFields
  unfold validateQuestionData
  rw [hm]
  simp only [Bind.bind, Except.bind]
  by_cases hE : (requiredFields.filter
      (fun f => !(kvs.any (fun kv => kv.1 == f)))).isEmpty = true
  · rw [if_pos hE]
    have hall : ∀ f ∈ requiredFields, kvs.any (fun kv => kv.1 == f) = true := by
      have h0 : requiredFields.filter
          (fun f => !(kvs.any (fun kv => kv.1 == f))) = [] := by
        simpa using hE
      intro f hf
      have h2 := List.filter_eq_nil_iff.mp h0 f hf
      simpa using h2
    exact ⟨⟨fun _ => hall, fun _ => rfl⟩, fun hcon => absurd rfl hcon⟩
  · rw [if_neg hE]
    constructor
    · constructor
      · intro hcon
        exact absurd hcon (by simp)
      · intro hall
        exfalso
        apply hE
        have h0 : requiredFields.filter
            (fun f => !(kvs.any (fun kv => kv.1 == f))) = [] := by
          rw [List.filter_eq_nil_iff]
          intro f hf
          simp [hall f hf]
        simp [h0]
    · intro _
      rfl

/-- C8: `find_unmastered_questions_for_student` returns at most `limit` rows,
each row the projection of a Question node with no MASTERED edge from the
given student; consecutive rows are ordered by the three-key comparison (a
full lexicographic sort whenever the ordering keys are integers, as every
ingested item produces), and MASTERED edges whose source is not this student
never change the result. -/
theorem unmastered_query_correct (g : Graph) (sid : String) (limit : Nat) :
    (findUnmasteredQuestionsForStudent g sid limit).length ≤ limit ∧
    (∀ r ∈ findUnmasteredQuestionsForStudent g sid limit,
      ∃ n ∈ g.nodes, n.label = "Question" ∧ hasMasteredFrom g sid n = false ∧
        projectQuestionRow n = r) ∧
    (findUnmasteredQuestionsForStudent g sid limit).Chain'
      (fun a b => rowKeyLE a b = true) ∧
    ((∀ n ∈ g.nodes, IntKeys (projectQuestionRow n)) →
      (findUnmasteredQuestionsForStudent g sid limit).Pairwise
        (fun a b => rowKeyLE a b = true)) ∧
    (∀ e : Edge, ¬(e.relType = "MASTERED" ∧ e.srcLabel = "Student" ∧
        e.srcKey = "student_id" ∧ e.srcVal = Val.str sid) →
      findUnmasteredQuestionsForStudent ⟨g.nodes, g.edges ++ [e]⟩ sid limit =
        findUnmasteredQuestionsForStudent g sid limit) := by
  refine ⟨?_, ?_, ?_, ?_, ?_⟩
  · unfold findUnmasteredQuestionsForStudent
    rw [List.length_take]
    omega
  · intro r hr
    unfold findUnmasteredQuestionsForStudent at hr
    have hr2 := List.take_subset _ _ hr
    rw [mem_sortRows] at hr2
    obtain ⟨n, hnf, rfl⟩ := List.mem_map.mp hr2
    obtain ⟨hn, hcond⟩ := List.mem_filter.mp hnf
    simp only [Bool.and_eq_true, beq_iff_eq, Bool.not_eq_true'] at hcond
    exact ⟨n, hn, hcond.1, hcond.2, rfl⟩
  · unfold findUnmasteredQuestionsForStudent
    exact List.Chain'.prefix (sortRows_chain rowKeyLE rowKeyLE_total _)
      (List.take_prefix _ _)
  · intro hint
    unfold findUnmasteredQuestionsForStudent
    have hall : ∀ r ∈ sortRows rowKeyLE
        ((g.nodes.filter (fun n => n.label == "Question" &&
          !(hasMasteredFrom g sid n))).map projectQuestionRow), IntKeys r := by
      intro r hr
      rw [mem_sortRows] at hr
      obtain ⟨n, hnf, rfl⟩ := List.mem_map.mp hr
      exact hint n (List.mem_filter.mp hnf).1
    have hpw := chain'_pairwise_of_trans _
      (fun a ha b hb c hc h1 h2 =>
        rowKeyLE_trans (hall a ha) (hall b hb) (hall c hc) h1 h2)
      (sortRows_chain rowKeyLE rowKeyLE_total _)
    exact List.Pairwise.sublist (List.take_sublist _ _) hpw
  · intro e he
    exact findUnmastered_ignores_other_edges g sid limit e he

/-- C9: when the parsed top-level value of the ingestion file is anything but
an array, `populate_from_json_file` raises `DataValidationError` immediately
— the error propagates to the caller, and no validation or upsert runs at
all (the result carries no report). -/
theorem non_array_input_fatal (runTx : Graph → Val → Except Err Graph)
    (g : Graph) (v : Val) (batchSize : Nat) (hv : ∀ xs, ¬ v = Val.arr xs) :
    populateFromJsonFile runTx g (some v) batchSize =
      .error (.validation "JSON file must contain an array of objects") := by
  unfold populateFromJsonFile loadJsonData
  cases v with
  | arr ys => exact absurd rfl (hv ys)
  | null => rfl
  | bool b => rfl
  | int n => rfl
  | str s => rfl
  | obj kvs => rfl

theorem non_array_input_fatal_witness :
    populateFromJsonFile (fun g _ => .ok g) Graph.empty (some (Val.obj [])) 10 =
      .error (.validation "JSON file must contain an array of objects") :=
  non_array_input_fatal (fun g _ => .ok g) Graph.empty (Val.obj []) 10
    (fun _ h => Val.noConfusion h)

/-- C10: whenever the batch pipeline returns a report, the report satisfies
`total_items = processed_items + failed_items + invalid_items`, and the
failed and invalid id lists have exactly the lengths of their counters:
every input item lands in exactly one outcome class. -/
theorem ingest_report_accounting (runTx : Graph → Val → Except Err Graph)
    (g : Graph) (data : List Val) (batchSize : Nat) (gf : Graph) (st : Stats)
    (h : processDataInBatches runTx g data batchSize = .ok (gf, st)) :
    st.total_items = st.processed_items + st.failed_items + st.invalid_items ∧
    st.failed_item_ids.length = st.failed_items ∧
    st.invalid_item_ids.length = st.invalid_items :=
  processDataInBatches_identity runTx g data batchSize gf st h

theorem ingest_report_accounting_witness :
    statsW.total_items = statsW.processed_items + statsW.failed_items +
        statsW.invalid_items ∧
    statsW.failed_item_ids.length = statsW.failed_items ∧
    statsW.invalid_item_ids.length = statsW.invalid_items :=
  ingest_report_accounting (fun g _ => .ok g) Graph.empty dataW 2 Graph.empty
    statsW (by decide)

end Fastwise